import Mathlib

/-!
Verification of the audio synthesis and timing-reconstruction pipeline of
`vsub_tts.py` (class `VSubTTSGenerator`).  The Python functions are embedded
shallowly: strings are `String`/`List Char`, Python `float` arithmetic is
idealised as `ℚ`, Python `int()` truncation toward zero is `pyInt`, and the
file-system effects of the orchestrator are an explicit state of temporary
file identifiers.
-/

set_option maxHeartbeats 1000000

/-! ## Python primitive models -/

/-- Model of Python `int(x)` applied to a float/rational: truncation toward
zero.  On `ℚ` this is T-division of the numerator by the denominator. -/
def pyInt (q : ℚ) : Int := q.num.tdiv q.den

/-- The digit characters used by Python's decimal rendering of integers. -/
def digitChar : Nat → Char
  | 0 => '0' | 1 => '1' | 2 => '2' | 3 => '3' | 4 => '4'
  | 5 => '5' | 6 => '6' | 7 => '7' | 8 => '8' | _ => '9'

def digitVal (c : Char) : Nat := c.toNat - 48

/-- Fuel-driven helper for decimal rendering (structural recursion so that
concrete instances reduce inside the kernel). -/
def toDecAux : Nat → Nat → List Char → List Char
  | 0, _, acc => acc
  | f + 1, n, acc =>
    if n < 10 then digitChar n :: acc
    else toDecAux f (n / 10) (digitChar (n % 10) :: acc)

/-- Decimal rendering of a natural number, most significant digit first,
as produced by Python's `str`/format of a nonnegative integer. -/
def toDec (n : Nat) : List Char := toDecAux (n + 1) n []

/-- Helper for the model of Python `int(str)`: accumulate decimal digits. -/
def parseNatGo (acc : Nat) : List Char → Option Nat
  | [] => some acc
  | c :: cs => if c.isDigit then parseNatGo (acc * 10 + digitVal c) cs else none

/-- Model of Python `int(s)` on a trimmed string: an optional sign followed by
a nonempty run of decimal digits; any other input raises (`none`). -/
def pyParseInt (s : List Char) : Option Int :=
  match s with
  | [] => none
  | c :: rest =>
    if c = '-' then
      if rest = [] then none else (parseNatGo 0 rest).map (fun n => -(n : Int))
    else if c = '+' then
      if rest = [] then none else (parseNatGo 0 rest).map (fun n => (n : Int))
    else
      (parseNatGo 0 (c :: rest)).map (fun n => (n : Int))

/-- Model of Python `str.replace(pat, repl)`: replace non-overlapping
occurrences left to right.  An empty pattern returns the string unchanged
(the source never calls it with an empty pattern). -/
def replaceAux : Nat → List Char → List Char → List Char → List Char
  | 0, _, _, s => s
  | f + 1, pat, repl, s =>
    match pat, s with
    | [], s => s
    | _ :: _, [] => []
    | p :: pr, c :: rest =>
      if (c :: rest).take (p :: pr).length = p :: pr then
        repl ++ replaceAux f (p :: pr) repl ((c :: rest).drop (p :: pr).length)
      else
        c :: replaceAux f (p :: pr) repl rest

def replaceList (pat repl s : List Char) : List Char := replaceAux (s.length + 1) pat repl s

/-- Model of Python `str.split(sep)` for a one-character separator. -/
def splitOnChar (sep : Char) : List Char → List (List Char)
  | [] => [[]]
  | c :: rest =>
    if c = sep then [] :: splitOnChar sep rest
    else
      match splitOnChar sep rest with
      | [] => [[c]]
      | p :: ps => (c :: p) :: ps

/-! ## Data model (`WordSettings`, `SentenceSettings`, dataclass defaults) -/

structure WordSettings where
  text : String
  pitch : String := "+0Hz"
  rate : String := "+0%"
  image_path : Option String := none
  image_start_ms : Option Int := none
  image_duration_ms : Int := 1000
  image_position : String := "center"
  image_scale : ℚ := 1
  audio_path : Option String := none
  audio_start_ms : Option Int := none
  audio_duration_ms : Option Int := none
  audio_volume : ℚ := 1
deriving DecidableEq

structure SentenceSettings where
  text : String
  words : List WordSettings
  voice : String := "en-US-ChristopherNeural"
  pitch : String := "+0Hz"
  rate : String := "+0%"
  background_video : Option String := some "assets/background/gameplay.mp4"
  caption_style : String := "default"
deriving DecidableEq

/-! ## Segment Chunker (`_process_sentence`, chunk-grouping loop) -/

/-- A chunk as built by `_process_sentence`: the dict
`{'words': [...], 'pitch': ..., 'rate': ...}` holding word texts. -/
structure Chunk where
  words : List String
  pitch : String
  rate : String
deriving DecidableEq

instance : Inhabited Chunk := ⟨⟨[], "", ""⟩⟩

/-- The body of the `for word in sentence.words` grouping loop, with
`cur` the running `current_chunk`; on exhaustion the source appends the
final `current_chunk`. -/
def chunkLoop (cur : Chunk) : List WordSettings → List Chunk
  | [] => [cur]
  | w :: rest =>
    if w.pitch = cur.pitch ∧ w.rate = cur.rate then
      chunkLoop { cur with words := cur.words ++ [w.text] } rest
    else
      cur :: chunkLoop ⟨[w.text], w.pitch, w.rate⟩ rest

/-- Chunk grouping of a sentence's word list: `current_chunk` starts with
empty words and the first word's pitch/rate (a sentence with no words
returns before the loop and yields no chunks). -/
def groupChunks : List WordSettings → List Chunk
  | [] => []
  | w :: ws => chunkLoop ⟨[], w.pitch, w.rate⟩ (w :: ws)

/-- Number of maximal runs of equal values in a list (the spec's notion of
maximal equal-(pitch,rate) runs). -/
def countRuns {α : Type _} [DecidableEq α] : List α → Nat
  | [] => 0
  | [_] => 1
  | a :: b :: t => (if a = b then 0 else 1) + countRuns (b :: t)

/-- Proof-auxiliary enriched grouping that retains the full `WordSettings`
of each run, used to state chunk homogeneity. -/
def chunkSegs (cur : List WordSettings) (p r : String) : List WordSettings → List (List WordSettings)
  | [] => [cur]
  | w :: rest =>
    if w.pitch = p ∧ w.rate = r then chunkSegs (cur ++ [w]) p r rest
    else cur :: chunkSegs [w] w.pitch w.rate rest

/-! ## Parameter Normalizer (`_validate_param`) -/

/-- Python `f"{val:+d}"`: always-signed decimal rendering of an integer. -/
def renderSigned (v : Int) : List Char :=
  if 0 ≤ v then '+' :: toDec v.toNat else '-' :: toDec v.natAbs

/-- A pitch/rate string of the form `±N` followed by a unit, as the spec's
"pitch string formed from N with unit Hz". -/
def renderParam (N : Int) (unit : List Char) : String := ⟨renderSigned N ++ unit⟩

/-- Embedding of `_validate_param` from `_process_sentence`: strip `%`, `Hz`
and `+`, parse the signed integer, clamp (rate to [-50, 100], pitch to
[-100, 100]), re-render with `f"{val:+d}"` plus the unit; on parse failure
return the input unchanged. -/
def validate_param (val_str : String) (param_type : String) : String :=
  let numChars := replaceList ['+'] []
    (replaceList ['H', 'z'] [] (replaceList ['%'] [] val_str.data))
  match pyParseInt numChars with
  | none => val_str
  | some val =>
    if param_type = "rate" then ⟨renderSigned (max (-50) (min 100 val)) ++ ['%']⟩
    else if param_type = "pitch" then ⟨renderSigned (max (-100) (min 100 val)) ++ ['H', 'z']⟩
    else val_str

/-! ## Synthesis requests issued by `_process_sentence` -/

/-- Python `' '.join(chunk['words'])`. -/
def joinWords (l : List String) : String := String.intercalate " " l

/-- Python `re.search('[a-zA-Z0-9]', text)` as a Boolean: does the text
contain an ASCII letter or digit? -/
def containsAlnum (s : String) : Bool := s.data.any (fun c => c.isAlpha || c.isDigit)

/-- One `edge_tts.Communicate(...)` synthesis request. -/
structure SynthRequest where
  text : String
  voice : String
  pitch : String
  rate : String
deriving DecidableEq

/-- The synthesis requests `_process_sentence` issues for a sentence: with an
empty word list it returns before synthesizing; with exactly one chunk it
synthesizes that chunk directly (no punctuation check); otherwise it issues
one request per chunk, skipping chunks without alphanumeric characters. -/
def synthesisRequests (s : SentenceSettings) : List SynthRequest :=
  if s.words = [] then []
  else
    let chunks := groupChunks s.words
    if chunks.length = 1 then
      [{ text := joinWords chunks.headI.words, voice := s.voice,
         pitch := validate_param chunks.headI.pitch "pitch",
         rate := validate_param chunks.headI.rate "rate" }]
    else
      chunks.filterMap fun c =>
        if containsAlnum (joinWords c.words) then
          some { text := joinWords c.words, voice := s.voice,
                 pitch := validate_param c.pitch "pitch",
                 rate := validate_param c.rate "rate" }
        else none

/-! ## SRT time encoding (`_ms_to_srt_time`, `_srt_time_to_ms`) -/

/-- Zero-pad a digit string on the left to the given width
(Python `f"{n:0Nd}"` for a nonnegative value). -/
def padZeros (w : Nat) (s : List Char) : List Char := List.replicate (w - s.length) '0' ++ s

/-- Python `f"{v:0Nd}"` for an integer: sign included in the width. -/
def formatPad (width : Nat) (v : Int) : List Char :=
  if v < 0 then '-' :: padZeros (width - 1) (toDec v.natAbs)
  else padZeros width (toDec v.toNat)

/-- Embedding of `_ms_to_srt_time`: successive floor-divisions and remainders
(Python `//` and `%`) rendered as `HH:MM:SS,mmm`. -/
def ms_to_srt_time (ms : Int) : List Char :=
  let hours := ms.fdiv 3600000
  let ms1 := ms.fmod 3600000
  let minutes := ms1.fdiv 60000
  let ms2 := ms1.fmod 60000
  let seconds := ms2.fdiv 1000
  let milliseconds := ms2.fmod 1000
  formatPad 2 hours ++ ':' ::
    (formatPad 2 minutes ++ ':' :: (formatPad 2 seconds ++ ',' :: formatPad 3 milliseconds))

/-- Embedding of `_srt_time_to_ms`: replace `,` with `:`, split on `:`,
parse exactly four integer fields; any failure returns 0. -/
def srt_time_to_ms (srt : List Char) : Int :=
  let parts := splitOnChar ':' (replaceList [','] [':'] srt)
  match parts with
  | [a, b, c, d] =>
    match pyParseInt a, pyParseInt b, pyParseInt c, pyParseInt d with
    | some h, some m, some s, some ms => (h * 3600 + m * 60 + s) * 1000 + ms
    | _, _, _, _ => 0
  | _ => 0

/-! ## Timing document data and the Timestamp Estimator (`_estimate_timestamps`) -/

/-- The `word_data['image']` dict built in `_process_sentence`:
`start_ms` is the word-relative offset, `absolute_start_ms` is added by the
estimator. -/
structure ImageDesc where
  path : String
  start_ms : Option Int
  duration_ms : Int
  position : String
  scale : ℚ
  absolute_start_ms : Option Int := none
deriving DecidableEq

/-- The `word_data['audio']` dict built in `_process_sentence`. -/
structure AudioDesc where
  path : String
  start_ms : Option Int
  duration_ms : Option Int
  volume : ℚ
  absolute_start_ms : Option Int := none
deriving DecidableEq

/-- One entry of a sentence's `words` list in the timing document. -/
structure WordData where
  text : String
  start_ms : Int
  end_ms : Int
  image : Option ImageDesc := none
  audio : Option AudioDesc := none
deriving DecidableEq

/-- One sentence entry of the timing document. -/
structure SentenceTS where
  sentence_index : Nat
  text : String
  start_ms : Int
  end_ms : Int
  words : List WordData
deriving DecidableEq

/-- The initial `word_data` dict built in `_process_sentence` (timestamps
zero, to be refined later; a missing stored offset is written as 0). -/
def initialWordData (w : WordSettings) : WordData :=
  { text := w.text, start_ms := 0, end_ms := 0,
    image := w.image_path.map (fun p =>
      { path := p, start_ms := some (w.image_start_ms.getD 0),
        duration_ms := w.image_duration_ms, position := w.image_position,
        scale := w.image_scale }),
    audio := w.audio_path.map (fun p =>
      { path := p, start_ms := some (w.audio_start_ms.getD 0),
        duration_ms := w.audio_duration_ms, volume := w.audio_volume }) }

/-- The preliminary `sentence_timestamps` dict built in `_process_sentence`
(`start_ms = idx * 2000`, `end_ms = (idx + 1) * 2000`). -/
def initialSentenceTS (idx : Nat) (s : SentenceSettings) : SentenceTS :=
  { sentence_index := idx, text := s.text,
    start_ms := (idx : Int) * 2000, end_ms := ((idx : Int) + 1) * 2000,
    words := s.words.map initialWordData }

/-- The per-word duration of `_estimate_timestamps`:
`(len(text) / total_chars) * duration_ms`, or an even split
`duration_ms / len(words)` when `total_chars == 0`. -/
def wordDur (total_chars nwords : Nat) (D : ℚ) (len : Nat) : ℚ :=
  if 0 < total_chars then ((len : ℚ) / (total_chars : ℚ)) * D else D / (nwords : ℚ)

def totalChars (ws : List WordData) : Nat := (ws.map (fun w => w.text.length)).sum

/-- `w['image']['absolute_start_ms'] = int(current_word_start + offset)`
with a missing or null offset treated as 0. -/
def refineImage (cursor : ℚ) (im : ImageDesc) : ImageDesc :=
  { im with absolute_start_ms := some (pyInt (cursor + ((im.start_ms.getD 0 : Int) : ℚ))) }

def refineAudioDesc (cursor : ℚ) (au : AudioDesc) : AudioDesc :=
  { au with absolute_start_ms := some (pyInt (cursor + ((au.start_ms.getD 0 : Int) : ℚ))) }

/-- The refinement of one word at the running cursor. -/
def refinedWordAt (total_chars nwords : Nat) (D : ℚ) (cursor : ℚ) (w : WordData) : WordData :=
  { w with
    start_ms := pyInt cursor,
    end_ms := pyInt (cursor + wordDur total_chars nwords D w.text.length),
    image := w.image.map (refineImage cursor),
    audio := w.audio.map (refineAudioDesc cursor) }

/-- The `for w in words` loop of `_estimate_timestamps`: assign
`start_ms`/`end_ms` from the running `current_word_start` cursor and resolve
overlay absolute starts, then advance the cursor by the word duration. -/
def refineWordsGo (total_chars nwords : Nat) (D : ℚ) (cursor : ℚ) :
    List WordData → List WordData
  | [] => []
  | w :: rest =>
    refinedWordAt total_chars nwords D cursor w ::
      refineWordsGo total_chars nwords D
        (cursor + wordDur total_chars nwords D w.text.length) rest

/-- Refinement of one sentence entry in `_estimate_timestamps` given the
running `current_time` cursor `ct` and the measured duration `D` (in ms):
`start_ms = int(ct)`, `end_ms = int(ct + D)`, and proportional word
refinement starting from `start_ms` (skipped when the word list is empty). -/
def refineSentenceTS (ct D : ℚ) (ts : SentenceTS) : SentenceTS :=
  let start_ms := pyInt ct
  let end_ms := pyInt (ct + D)
  let words :=
    if ts.words = [] then ts.words
    else refineWordsGo (totalChars ts.words) ts.words.length D ((start_ms : Int) : ℚ) ts.words
  { ts with start_ms := start_ms, end_ms := end_ms, words := words }

/-- The per-file loop of `_estimate_timestamps`: a measured duration refines
the entry and advances `current_time`; a measurement failure (`none`) falls
back to the initial entry and leaves `current_time` unchanged. -/
def estimateGo (ct : ℚ) : List (Option ℚ) → List SentenceTS → List SentenceTS
  | [], _ => []
  | _ :: _, [] => []
  | d :: ds, ts :: rest =>
    match d with
    | some D => refineSentenceTS ct D ts :: estimateGo (ct + D) ds rest
    | none => ts :: estimateGo ct ds rest

/-- `_estimate_timestamps`: `current_time` starts at 0. -/
def estimateTimestamps (durations : List (Option ℚ)) (initial : List SentenceTS) :
    List SentenceTS :=
  estimateGo 0 durations initial

/-- Concrete fixture for C9: two one-letter words; the second carries an
image descriptor with word-relative offset -1 ms. -/
def exImage : ImageDesc := ⟨"img.png", some (-1), 1000, "center", 1, none⟩

def exWordA : WordData := ⟨"a", 0, 0, none, none⟩

def exWordB : WordData := ⟨"b", 0, 0, some exImage, none⟩

def exSentenceTS : SentenceTS := ⟨0, "a b", 0, 0, [exWordA, exWordB]⟩

/-! ## File-system state model and the Audio Stitcher (`_combine_audio_files`) -/

/-- Abstract state of run-scoped temporary files: a fresh-name counter (as
`tempfile.NamedTemporaryFile(delete=False)` always yields a new path) and the
set of temp files currently on disk. -/
structure FsState where
  counter : Nat
  files : Finset Nat
deriving DecidableEq

/-- `tempfile.NamedTemporaryFile(delete=False)`: creates a fresh file. -/
def newFile (st : FsState) : Nat × FsState :=
  (st.counter, ⟨st.counter + 1, insert st.counter st.files⟩)

/-- `os.unlink` guarded by `os.path.exists` (removing an absent file is a
no-op, matching the guarded/except-pass deletion sites in the source). -/
def unlinkFile (f : Nat) (st : FsState) : FsState := ⟨st.counter, st.files.erase f⟩

/-- An entry of the `trimmed_files` list in `_combine_audio_files`: either the
freshly written trimmed file or, on trim failure, the untrimmed original. -/
inductive ClipRef
  | trimmed (orig tid : Nat)
  | untrimmed (orig : Nat)
deriving DecidableEq

/-- What `_combine_audio_files` writes to the output path: a stream-copy
concatenation of the trimmed list, or (on concat failure) a copy of the first
input file. -/
inductive WriteDesc
  | concatOf (clips : List ClipRef)
  | copyOf (f : Nat)
deriving DecidableEq

/-- External-process outcomes for one `_combine_audio_files` call: one trim
result per input clip, and the concat result. -/
structure CombineOracle where
  trimOk : List Bool
  concatOk : Bool
deriving DecidableEq

/-- The per-clip silence-trim loop: on success a fresh trimmed file is
written and recorded, on failure the original path is recorded. -/
def trimLoop : List Nat → List Bool → FsState → List ClipRef × FsState
  | [], _, st => ([], st)
  | _ :: _, [], st => ([], st)
  | f :: fs, ok :: oks, st =>
    if ok then
      (ClipRef.trimmed f (newFile st).1 :: (trimLoop fs oks (newFile st).2).1,
        (trimLoop fs oks (newFile st).2).2)
    else
      (ClipRef.untrimmed f :: (trimLoop fs oks st).1, (trimLoop fs oks st).2)

/-- The `finally` block of `_combine_audio_files`: every trimmed file is
moved back over its original (`shutil.move`), removing the trimmed path;
untrimmed entries are left alone. -/
def moveBack (clips : List ClipRef) (st : FsState) : FsState :=
  clips.foldl (fun acc c => match c with
    | ClipRef.trimmed _ tid => unlinkFile tid acc
    | ClipRef.untrimmed _ => acc) st

/-- Embedding of `_combine_audio_files`: trim each input, write the concat
list file, concatenate (unlinking the list file only on success); on concat
failure fall back to copying the first input if any; finally move trimmed
files back over the originals. -/
def combineM (inputs : List Nat) (oracle : CombineOracle) (st : FsState) :
    Option WriteDesc × FsState :=
  let tr := trimLoop inputs oracle.trimOk st
  let lf := newFile tr.2
  let wr :=
    if oracle.concatOk then
      (some (WriteDesc.concatOf tr.1), unlinkFile lf.1 lf.2)
    else
      (if inputs.isEmpty then none else some (WriteDesc.copyOf (inputs.headD 0)), lf.2)
  (wr.1, moveBack tr.1 wr.2)

/-! ## Pipeline Orchestrator (`generate_audio` and `_process_sentence`) -/

/-- Outcome of awaiting a sentence's synthesis calls: all succeed, or some
chunk's `communicate.save` raises with the engine's error message. -/
inductive SentOutcome
  | ok
  | synthFail (e : String)
deriving DecidableEq

/-- The third component of the tuple `_process_sentence` returns:
`None` (empty word list), the preliminary timestamps, or the caught
exception. -/
inductive PRes
  | noWords
  | ts (t : SentenceTS)
  | exc (e : String)
deriving DecidableEq

/-- Create `k` fresh temporary files (the per-chunk temp files). -/
def newFiles : Nat → FsState → List Nat × FsState
  | 0, st => ([], st)
  | k + 1, st =>
    ((newFile st).1 :: (newFiles k (newFile st).2).1, (newFiles k (newFile st).2).2)

/-- Unlink a list of files (each guarded by `os.path.exists` / `except`). -/
def unlinkAll (fs : List Nat) (st : FsState) : FsState :=
  fs.foldl (fun acc f => unlinkFile f acc) st

/-- Embedding of `_process_sentence`: returns before synthesis on an empty
word list; otherwise creates the per-sentence temp file, then either
synthesizes the single chunk directly, or creates per-chunk temp files for
the alphanumeric chunks, awaits them, combines them into the sentence temp
file and (in `finally`) unlinks the chunk temp files.  On a synthesis
failure the exception is caught and returned; only the chunk temp files are
cleaned, the per-sentence temp file is not. -/
def processSentenceM (idx : Nat) (s : SentenceSettings) (outcome : SentOutcome)
    (oracle : CombineOracle) (st : FsState) : (Nat × Option Nat × PRes) × FsState :=
  if s.words = [] then ((idx, none, PRes.noWords), st)
  else
    let chunks := groupChunks s.words
    let nf := newFile st
    if chunks.length = 1 then
      match outcome with
      | SentOutcome.ok => ((idx, some nf.1, PRes.ts (initialSentenceTS idx s)), nf.2)
      | SentOutcome.synthFail e => ((idx, none, PRes.exc e), nf.2)
    else
      let keep := chunks.filter (fun c => containsAlnum (joinWords c.words))
      let cf := newFiles keep.length nf.2
      match outcome with
      | SentOutcome.synthFail e => ((idx, none, PRes.exc e), unlinkAll cf.1 cf.2)
      | SentOutcome.ok =>
        let cm := combineM cf.1 oracle cf.2
        ((idx, some nf.1, PRes.ts (initialSentenceTS idx s)), unlinkAll cf.1 cm.2)

/-- The per-sentence fan-out of `generate_audio` (file effects sequenced in
task order; results keep their sentence indices). -/
def processAll : Nat → List SentenceSettings → List SentOutcome → List CombineOracle →
    FsState → List (Nat × Option Nat × PRes) × FsState
  | _, [], _, _, st => ([], st)
  | _, _ :: _, [], _, st => ([], st)
  | _, _ :: _, _ :: _, [], st => ([], st)
  | idx, s :: ss, o :: outs, oc :: ocs, st =>
    ((processSentenceM idx s o oc st).1 ::
        (processAll (idx + 1) ss outs ocs (processSentenceM idx s o oc st).2).1,
      (processAll (idx + 1) ss outs ocs (processSentenceM idx s o oc st).2).2)

/-- Delivery of the gathered results in an arbitrary completion order
(a permutation of the task indices). -/
def reorder (perm : List Nat) (rs : List (Nat × Option Nat × PRes)) :
    List (Nat × Option Nat × PRes) :=
  perm.filterMap (fun i => rs.get? i)

/-- The `for idx, temp_file_path, result in results` loop of
`generate_audio`: raise on the first exception (the `except` block will
unlink the temp files accumulated so far, carried in the error), otherwise
accumulate the temp path and the timestamp entry. -/
def collectResults : List (Nat × Option Nat × PRes) → List Nat → List SentenceTS →
    Except (String × List Nat) (List Nat × List SentenceTS)
  | [], temps, tss => Except.ok (temps, tss)
  | r :: rest, temps, tss =>
    match r.2.2 with
    | PRes.exc e => Except.error (e, temps)
    | PRes.noWords =>
      match r.2.1 with
      | some t => collectResults rest (temps ++ [t]) tss
      | none => collectResults rest temps tss
    | PRes.ts t =>
      match r.2.1 with
      | some tp => collectResults rest (temps ++ [tp]) (tss ++ [t])
      | none => collectResults rest temps tss

/-- The outcome of one `generate_audio` run: what was written to the output
path, the timing document of the returned project data, and the raised
error, if any. -/
structure RunResult where
  output : Option WriteDesc
  project : Option (List SentenceTS)
  errorMsg : Option String
deriving DecidableEq

/-- Embedding of `generate_audio`: fan out per-sentence processing, sort the
delivered results by sentence index (`results.sort(key=lambda x: x[0])`,
modeled with a stable insertion sort), raise the first recorded exception
after unlinking the temp files collected so far, otherwise combine the
per-sentence temp files into the output, estimate timestamps, and unlink the
per-sentence temp files. -/
def generateAudioM (sentences : List SentenceSettings) (outs : List SentOutcome)
    (oracles : List CombineOracle) (finalOracle : CombineOracle)
    (durations : List (Option ℚ)) (perm : List Nat) (st : FsState) : RunResult × FsState :=
  let pr := processAll 0 sentences outs oracles st
  let delivered := reorder perm pr.1
  let sorted := List.insertionSort (fun a b => a.1 ≤ b.1) delivered
  match collectResults sorted [] [] with
  | Except.error (e, temps) => (⟨none, none, some e⟩, unlinkAll temps pr.2)
  | Except.ok (temps, tss) =>
    let cm := combineM temps finalOracle pr.2
    let refined := estimateTimestamps durations tss
    (⟨cm.1, some refined, none⟩, unlinkAll temps cm.2)

/-- The state-independent result component `_process_sentence` reports for a
sentence given its synthesis outcome. -/
def expectedRes (idx : Nat) (s : SentenceSettings) (o : SentOutcome) : PRes :=
  if s.words = [] then PRes.noWords
  else match o with
    | SentOutcome.ok => PRes.ts (initialSentenceTS idx s)
    | SentOutcome.synthFail e => PRes.exc e

/-- The temp paths `generate_audio` accumulates from the results. -/
def collectTemps (rs : List (Nat × Option Nat × PRes)) : List Nat :=
  rs.filterMap (fun r => r.2.1)

/-- The timestamp entries `generate_audio` accumulates from the results. -/
def tsListOf (rs : List (Nat × Option Nat × PRes)) : List SentenceTS :=
  rs.filterMap (fun r => match r.2.2, r.2.1 with
    | PRes.ts t, some _ => some t
    | _, _ => none)

/-- Invariant of the temp-file state: every file on disk was created by an
earlier `newFile`, so its id is below the fresh-name counter. -/
def FsOk (st : FsState) : Prop := ∀ f ∈ st.files, f < st.counter

/-- Concrete fixtures: two single-word sentences. -/
def exSentHi : SentenceSettings :=
  ⟨"Hi", [⟨"Hi", "+0Hz", "+0%", none, none, 1000, "center", 1, none, none, none, 1⟩],
    "en-US-ChristopherNeural", "+0Hz", "+0%", none, "default"⟩

def exSentYo : SentenceSettings :=
  ⟨"Yo", [⟨"Yo", "+0Hz", "+0%", none, none, 1000, "center", 1, none, none, none, 1⟩],
    "en-US-ChristopherNeural", "+0Hz", "+0%", none, "default"⟩

/-- Cursor value before entry `i`: the sum of the durations measured before
it (failed measurements do not advance the cursor). -/
def sumPrev (ds : List (Option ℚ)) (i : Nat) : ℚ := ((ds.take i).filterMap id).sum

/-! ## Theorems -/


theorem pyInt_eq_floor {q : ℚ} (h : 0 ≤ q) : pyInt q = ⌊q⌋ := by
  unfold pyInt
  rw [Int.tdiv_eq_ediv (Rat.num_nonneg.mpr h) (by positivity)]
  exact (Rat.floor_def).symm

theorem pyInt_intCast (n : Int) : pyInt (n : ℚ) = n := by
  unfold pyInt
  simp [Rat.num_intCast, Rat.den_intCast, Int.tdiv_one]

theorem pyInt_natCast (n : Nat) : pyInt (n : ℚ) = n := by
  have := pyInt_intCast (n : Int)
  simpa using this

theorem pyInt_zero : pyInt 0 = 0 := by
  have := pyInt_intCast 0
  simpa using this

theorem pyInt_eq_ceil {q : ℚ} (h : q < 0) : pyInt q = ⌈q⌉ := by
  have hn : q.num < 0 := by
    by_contra hcon
    exact absurd (Rat.num_nonneg.mp (by omega)) (not_le.mpr h)
  have h1 : pyInt q = -((-q.num).tdiv q.den) := by
    unfold pyInt
    rw [Int.neg_tdiv]
    omega
  rw [h1, Int.tdiv_eq_ediv (by omega) (by positivity)]
  rw [show (-q.num : Int) = (-q).num from (Rat.num_neg_eq_neg_num q).symm]
  rw [show (q.den : Int) = ((-q).den : Int) by rw [Rat.den_neg_eq_den]]
  rw [← Rat.floor_def, Int.floor_neg]
  omega

theorem toDecAux_step (f n : Nat) (acc : List Char) :
    toDecAux (f + 1) n acc =
      if n < 10 then digitChar n :: acc
      else toDecAux f (n / 10) (digitChar (n % 10) :: acc) := rfl

theorem toDecAux_eq (n : Nat) : ∀ f acc, n < f →
    toDecAux f n acc =
      (if n < 10 then [digitChar n] else toDec (n / 10) ++ [digitChar (n % 10)]) ++ acc := by
  induction n using Nat.strong_induction_on with
  | _ n ih =>
    intro f acc hf
    match f, hf with
    | f + 1, _ =>
      rw [toDecAux_step]
      by_cases h : n < 10
      · simp [h]
      · have hd : n / 10 < n := Nat.div_lt_self (by omega) (by omega)
        rw [if_neg h, if_neg h]
        rw [ih (n / 10) hd f (digitChar (n % 10) :: acc) (by omega)]
        have htd : toDec (n / 10)
            = (if n / 10 < 10 then [digitChar (n / 10)]
               else toDec (n / 10 / 10) ++ [digitChar (n / 10 % 10)]) ++ [] := by
          show toDecAux (n / 10 + 1) (n / 10) [] = _
          exact ih (n / 10) hd (n / 10 + 1) [] (by omega)
        rw [htd]
        simp

theorem toDecAux_spec (n f : Nat) (acc : List Char) (h : n < f) :
    toDecAux f n acc = toDec n ++ acc := by
  rw [toDecAux_eq n f acc h]
  have : toDec n = (if n < 10 then [digitChar n]
      else toDec (n / 10) ++ [digitChar (n % 10)]) ++ [] := by
    show toDecAux (n + 1) n [] = _
    exact toDecAux_eq n (n + 1) [] (by omega)
  rw [this]
  simp

theorem toDec_eq (n : Nat) :
    toDec n = if n < 10 then [digitChar n] else toDec (n / 10) ++ [digitChar (n % 10)] := by
  have : toDec n = (if n < 10 then [digitChar n]
      else toDec (n / 10) ++ [digitChar (n % 10)]) ++ [] := by
    show toDecAux (n + 1) n [] = _
    exact toDecAux_eq n (n + 1) [] (by omega)
  rw [this]
  simp

theorem toDec_ne_nil (n : Nat) : toDec n ≠ [] := by
  rw [toDec_eq]
  split <;> simp

theorem digitChar_isDigit {n : Nat} (h : n < 10) : (digitChar n).isDigit = true := by
  interval_cases n <;> decide

theorem digitVal_digitChar {n : Nat} (h : n < 10) : digitVal (digitChar n) = n := by
  interval_cases n <;> decide

theorem toDec_all_digits (n : Nat) : ∀ c ∈ toDec n, c.isDigit = true := by
  induction n using Nat.strong_induction_on with
  | _ n ih =>
    rw [toDec_eq]
    split
    · next h => intro c hc; simp at hc; subst hc; exact digitChar_isDigit h
    · next h =>
      intro c hc
      simp only [List.mem_append, List.mem_singleton] at hc
      rcases hc with hc | hc
      · exact ih (n / 10) (Nat.div_lt_self (by omega) (by omega)) c hc
      · subst hc; exact digitChar_isDigit (Nat.mod_lt _ (by omega))

theorem parseNatGo_append (acc : Nat) (xs ys : List Char) :
    parseNatGo acc (xs ++ ys) =
      match parseNatGo acc xs with
      | some a => parseNatGo a ys
      | none => none := by
  induction xs generalizing acc with
  | nil => simp [parseNatGo]
  | cons c cs ih =>
    simp only [List.cons_append, parseNatGo]
    by_cases h : c.isDigit <;> simp [h, ih]

theorem parseNatGo_toDec (n acc : Nat) :
    parseNatGo acc (toDec n) = some (acc * 10 ^ (toDec n).length + n) := by
  induction n using Nat.strong_induction_on generalizing acc with
  | _ n ih =>
    by_cases h : n < 10
    · rw [toDec_eq]
      simp only [h, if_true, parseNatGo, digitChar_isDigit h,
        digitVal_digitChar h, List.length_singleton, pow_one]
    · have hrec : toDec n = toDec (n / 10) ++ [digitChar (n % 10)] := by
        rw [toDec_eq]; simp [h]
      rw [hrec, parseNatGo_append, ih (n / 10) (Nat.div_lt_self (by omega) (by omega)) acc]
      have h10 : n % 10 < 10 := Nat.mod_lt _ (by omega)
      simp only [parseNatGo, digitChar_isDigit h10, if_true, digitVal_digitChar h10,
        List.length_append, List.length_singleton]
      congr 1
      have := Nat.div_add_mod n 10
      ring_nf
      omega

theorem parseNatGo_zero_toDec (n : Nat) : parseNatGo 0 (toDec n) = some n := by
  simpa using parseNatGo_toDec n 0

theorem replaceAux_step (f : Nat) (pat repl s : List Char) :
    replaceAux (f + 1) pat repl s =
      match pat, s with
      | [], s => s
      | _ :: _, [] => []
      | p :: pr, c :: rest =>
        if (c :: rest).take (p :: pr).length = p :: pr then
          repl ++ replaceAux f (p :: pr) repl ((c :: rest).drop (p :: pr).length)
        else
          c :: replaceAux f (p :: pr) repl rest := rfl

theorem replaceAux_fuel : ∀ (n : Nat) (s : List Char), s.length ≤ n →
    ∀ f g pat repl, s.length < f → s.length < g →
    replaceAux f pat repl s = replaceAux g pat repl s := by
  intro n
  induction n with
  | zero =>
    intro s hs f g pat repl hf hg
    match s, hs with
    | [], _ =>
      match f, hf, g, hg with
      | f + 1, _, g + 1, _ =>
        rw [replaceAux_step, replaceAux_step]
        cases pat <;> rfl
  | succ n ih =>
    intro s hs f g pat repl hf hg
    match f, hf, g, hg with
    | f + 1, hf', g + 1, hg' =>
      rw [replaceAux_step, replaceAux_step]
      match pat, s, hs, hf', hg' with
      | [], s, _, _, _ => rfl
      | p :: pr, [], _, _, _ => rfl
      | p :: pr, c :: rest, hs', hf'', hg'' =>
        have hrest : rest.length ≤ n := by
          simp only [List.length_cons] at hs'; omega
        have hflen : rest.length < f := by
          simp only [List.length_cons] at hf''; omega
        have hglen : rest.length < g := by
          simp only [List.length_cons] at hg''; omega
        simp only
        split
        · congr 1
          refine ih ((c :: rest).drop (p :: pr).length) ?_ f g _ _ ?_ ?_ <;>
            simp only [List.length_drop, List.length_cons] <;> omega
        · congr 1
          exact ih rest hrest f g _ _ hflen hglen

theorem replaceList_nil (p : Char) (pr repl : List Char) :
    replaceList (p :: pr) repl [] = [] := rfl

theorem replaceList_cons (p : Char) (pr repl : List Char) (c : Char) (rest : List Char) :
    replaceList (p :: pr) repl (c :: rest) =
      if (c :: rest).take (p :: pr).length = p :: pr then
        repl ++ replaceList (p :: pr) repl ((c :: rest).drop (p :: pr).length)
      else
        c :: replaceList (p :: pr) repl rest := by
  show replaceAux ((rest.length + 1) + 1) _ _ _ = _
  rw [replaceAux_step]
  simp only
  split
  · congr 1
    refine replaceAux_fuel rest.length ((c :: rest).drop (p :: pr).length) ?_ _ _ _ _ ?_ ?_ <;>
      simp only [List.length_drop, List.length_cons] <;> omega
  · rfl

theorem replaceList_single (a b : Char) (s : List Char) :
    replaceList [a] [b] s = s.map (fun c => if c = a then b else c) := by
  induction s with
  | nil => rw [replaceList_nil]; rfl
  | cons c rest ih =>
    rw [replaceList_cons]
    by_cases h : c = a
    · subst h; simp [ih]
    · simp only [List.length_singleton, List.take_cons, List.take_zero, List.map_cons]
      simp [h, ih]

theorem replaceList_single_del (a : Char) (s : List Char) :
    replaceList [a] [] s = s.filter (fun c => c ≠ a) := by
  induction s with
  | nil => rw [replaceList_nil]; rfl
  | cons c rest ih =>
    rw [replaceList_cons]
    by_cases h : c = a
    · subst h; simp [ih]
    · simp only [List.length_singleton, List.take_cons, List.take_zero]
      simp [h, ih]

theorem replaceList_single_del_of_not_mem (a : Char) (s : List Char) (h : a ∉ s) :
    replaceList [a] [] s = s := by
  rw [replaceList_single_del]
  exact List.filter_eq_self.mpr (by intro c hc; simp; rintro rfl; exact h hc)

theorem replaceList_Hz_of_no_H (s : List Char) (h : 'H' ∉ s) :
    replaceList ['H', 'z'] [] s = s := by
  induction s with
  | nil => rw [replaceList_nil]
  | cons c rest ih =>
    have hc : c ≠ 'H' := by intro hc; exact h (hc ▸ List.mem_cons_self c rest)
    have htake : ¬((c :: rest).take 2 = ['H', 'z']) := by
      intro heq
      cases rest with
      | nil => simp at heq
      | cons d ds => simp at heq; exact hc heq.1
    rw [replaceList_cons]
    simp only [List.length_cons, List.length_singleton, List.length_nil]
    rw [if_neg (by simpa using htake)]
    rw [ih (fun hm => h (List.mem_cons_of_mem c hm))]

theorem replaceList_Hz_append (s : List Char) (h : 'H' ∉ s) :
    replaceList ['H', 'z'] [] (s ++ ['H', 'z']) = s := by
  induction s with
  | nil =>
    show replaceList ['H', 'z'] [] ('H' :: 'z' :: []) = []
    rw [replaceList_cons]
    norm_num
    rw [replaceList_nil]
  | cons c rest ih =>
    have hc : c ≠ 'H' := by intro hc; exact h (hc ▸ List.mem_cons_self c rest)
    have htake : ¬((c :: (rest ++ ['H', 'z'])).take 2 = ['H', 'z']) := by
      intro heq
      cases rest with
      | nil => simp at heq
      | cons d ds => simp at heq; exact hc heq.1
    rw [List.cons_append, replaceList_cons]
    simp only [List.length_cons, List.length_singleton, List.length_nil]
    rw [if_neg (by simpa using htake)]
    rw [ih (fun hm => h (List.mem_cons_of_mem c hm))]

theorem splitOnChar_ne_nil (sep : Char) (s : List Char) : splitOnChar sep s ≠ [] := by
  cases s with
  | nil => simp [splitOnChar]
  | cons c rest =>
    simp only [splitOnChar]
    split
    · simp
    · split <;> simp

theorem splitOnChar_append (sep : Char) (p rest : List Char) (hp : sep ∉ p) :
    splitOnChar sep (p ++ sep :: rest) = p :: splitOnChar sep rest := by
  induction p with
  | nil => simp [splitOnChar]
  | cons c cs ih =>
    have hc : c ≠ sep := by intro h; exact hp (h ▸ List.mem_cons_self c cs)
    have hcs : sep ∉ cs := fun hm => hp (List.mem_cons_of_mem c hm)
    have hstep : splitOnChar sep ((c :: cs) ++ sep :: rest) =
        match splitOnChar sep (cs ++ sep :: rest) with
        | [] => [[c]]
        | p :: ps => (c :: p) :: ps := by
      simp [splitOnChar, hc]
    rw [hstep, ih hcs]

theorem splitOnChar_no_sep (sep : Char) (p : List Char) (hp : sep ∉ p) :
    splitOnChar sep p = [p] := by
  induction p with
  | nil => rfl
  | cons c cs ih =>
    have hc : c ≠ sep := by intro h; exact hp (h ▸ List.mem_cons_self c cs)
    have hcs : sep ∉ cs := fun hm => hp (List.mem_cons_of_mem c hm)
    simp only [splitOnChar, hc, if_false, ih hcs]

theorem chunkLoop_ne_nil (cur : Chunk) (ws : List WordSettings) : chunkLoop cur ws ≠ [] := by
  induction ws generalizing cur with
  | nil => simp [chunkLoop]
  | cons w rest ih =>
    simp only [chunkLoop]
    split
    · exact ih _
    · simp

theorem chunkLoop_head (cur : Chunk) (ws : List WordSettings) :
    ∃ ts tl, chunkLoop cur ws = ⟨ts, cur.pitch, cur.rate⟩ :: tl := by
  induction ws generalizing cur with
  | nil => exact ⟨cur.words, [], rfl⟩
  | cons w rest ih =>
    simp only [chunkLoop]
    split
    · obtain ⟨ts, tl, h⟩ := ih { cur with words := cur.words ++ [w.text] }
      exact ⟨ts, tl, h⟩
    · exact ⟨cur.words, _, rfl⟩

theorem chunkLoop_join (cur : Chunk) (ws : List WordSettings) :
    ((chunkLoop cur ws).map Chunk.words).flatten = cur.words ++ ws.map WordSettings.text := by
  induction ws generalizing cur with
  | nil => simp [chunkLoop]
  | cons w rest ih =>
    simp only [chunkLoop]
    split
    · rw [ih]; simp
    · simp only [List.map_cons, List.flatten_cons]
      rw [ih]; simp

theorem chunkLoop_chain (cur : Chunk) (ws : List WordSettings) :
    List.Chain' (fun a b : Chunk => (a.pitch, a.rate) ≠ (b.pitch, b.rate)) (chunkLoop cur ws) := by
  induction ws generalizing cur with
  | nil => simp [chunkLoop]
  | cons w rest ih =>
    simp only [chunkLoop]
    split
    · exact ih _
    · next hne =>
      obtain ⟨ts, tl, h⟩ := chunkLoop_head ⟨[w.text], w.pitch, w.rate⟩ rest
      rw [h]
      refine List.Chain'.cons ?_ (h ▸ ih _)
      simp only [ne_eq, Prod.mk.injEq, not_and]
      intro hp hr
      exact hne ⟨hp.symm, hr.symm⟩

theorem chunkLoop_length (ts : List String) (p r : String) (ws : List WordSettings) :
    (chunkLoop ⟨ts, p, r⟩ ws).length = countRuns ((p, r) :: ws.map fun w => (w.pitch, w.rate)) := by
  induction ws generalizing ts p r with
  | nil => simp [chunkLoop, countRuns]
  | cons w rest ih =>
    simp only [chunkLoop, List.map_cons]
    split
    · next h =>
      rw [ih]
      have : ((p, r) : String × String) = (w.pitch, w.rate) := by
        rw [h.1, h.2]
      rw [this]
      simp [countRuns]
    · next h =>
      simp only [List.length_cons]
      rw [ih]
      have : ¬(((p, r) : String × String) = (w.pitch, w.rate)) := by
        intro heq
        simp only [Prod.mk.injEq] at heq
        exact h ⟨heq.1.symm, heq.2.symm⟩
      simp only [countRuns, if_neg this]
      omega

theorem chunkLoop_segs (ws : List WordSettings) :
    ∀ (cur : List WordSettings) (p r : String),
      (∀ w ∈ cur, w.pitch = p ∧ w.rate = r) →
      (chunkSegs cur p r ws).flatten = cur ++ ws
      ∧ (chunkLoop ⟨cur.map WordSettings.text, p, r⟩ ws).map Chunk.words
          = (chunkSegs cur p r ws).map (fun s => s.map WordSettings.text)
      ∧ List.Forall₂ (fun (c : Chunk) (s : List WordSettings) =>
          ∀ w ∈ s, w.pitch = c.pitch ∧ w.rate = c.rate)
          (chunkLoop ⟨cur.map WordSettings.text, p, r⟩ ws) (chunkSegs cur p r ws) := by
  induction ws with
  | nil =>
    intro cur p r hcur
    refine ⟨by simp [chunkSegs], by simp [chunkSegs, chunkLoop], ?_⟩
    simp only [chunkSegs, chunkLoop]
    exact List.forall₂_cons.mpr ⟨hcur, List.Forall₂.nil⟩
  | cons w rest ih =>
    intro cur p r hcur
    by_cases h : w.pitch = p ∧ w.rate = r
    · have hcur' : ∀ v ∈ cur ++ [w], v.pitch = p ∧ v.rate = r := by
        intro v hv
        rcases List.mem_append.mp hv with hv | hv
        · exact hcur v hv
        · simp at hv; subst hv; exact h
      obtain ⟨h1, h2, h3⟩ := ih (cur ++ [w]) p r hcur'
      refine ⟨?_, ?_, ?_⟩
      · simp only [chunkSegs, if_pos h]
        rw [h1]; simp
      · simp only [chunkSegs, chunkLoop, if_pos h]
        have : (cur.map WordSettings.text) ++ [w.text] = (cur ++ [w]).map WordSettings.text := by
          simp
        rw [this]
        exact h2
      · simp only [chunkSegs, chunkLoop, if_pos h]
        have : (cur.map WordSettings.text) ++ [w.text] = (cur ++ [w]).map WordSettings.text := by
          simp
        rw [this]
        exact h3
    · have hw : ∀ v ∈ [w], v.pitch = w.pitch ∧ v.rate = w.rate := by
        intro v hv; simp at hv; subst hv; exact ⟨rfl, rfl⟩
      obtain ⟨h1, h2, h3⟩ := ih [w] w.pitch w.rate hw
      refine ⟨?_, ?_, ?_⟩
      · simp only [chunkSegs, if_neg h]
        simp only [List.flatten_cons]
        rw [h1]
        simp
      · simp only [chunkSegs, chunkLoop, if_neg h, List.map_cons]
        simp only [List.map_cons, List.map_nil] at h2
        rw [h2]
      · simp only [chunkSegs, chunkLoop, if_neg h]
        refine List.forall₂_cons.mpr ⟨hcur, ?_⟩
        simp only [List.map_cons, List.map_nil] at h3
        exact h3

/-- C1: for a sentence with a non-empty word list, the chunk-grouping loop in
`_process_sentence` yields chunks whose word lists concatenate back to the
sentence's word texts, each chunk is homogeneous in (pitch, rate), consecutive
chunks differ in (pitch, rate), and the number of chunks equals the number of
maximal equal-(pitch, rate) runs. -/
theorem C1_chunk_partition (ws : List WordSettings) (hne : ws ≠ []) :
    (((groupChunks ws).map Chunk.words).flatten = ws.map WordSettings.text)
    ∧ (∃ segs : List (List WordSettings),
        segs.flatten = ws
        ∧ (groupChunks ws).map Chunk.words = segs.map (fun s => s.map WordSettings.text)
        ∧ List.Forall₂ (fun (c : Chunk) (s : List WordSettings) =>
            ∀ w ∈ s, w.pitch = c.pitch ∧ w.rate = c.rate) (groupChunks ws) segs)
    ∧ List.Chain' (fun a b : Chunk => (a.pitch, a.rate) ≠ (b.pitch, b.rate)) (groupChunks ws)
    ∧ (groupChunks ws).length = countRuns (ws.map fun w => (w.pitch, w.rate)) := by
  cases ws with
  | nil => exact absurd rfl hne
  | cons w rest =>
    refine ⟨?_, ?_, ?_, ?_⟩
    · simp only [groupChunks]
      rw [chunkLoop_join]
      simp
    · obtain ⟨h1, h2, h3⟩ := chunkLoop_segs (w :: rest) [] w.pitch w.rate (by simp)
      refine ⟨chunkSegs [] w.pitch w.rate (w :: rest), by simpa using h1, ?_, ?_⟩
      · simpa [groupChunks] using h2
      · simpa [groupChunks] using h3
    · simpa [groupChunks] using chunkLoop_chain ⟨[], w.pitch, w.rate⟩ (w :: rest)
    · simp only [groupChunks]
      rw [chunkLoop_length]
      simp [countRuns]

/-- Witness for C1 at the spec's scenario: words "LOUD" (+50Hz) and
"quiet" (-50Hz) with default rates. -/
theorem C1_chunk_partition_witness :
    (([⟨"LOUD", "+50Hz", "+0%", none, none, 1000, "center", 1, none, none, none, 1⟩,
       ⟨"quiet", "-50Hz", "+0%", none, none, 1000, "center", 1, none, none, none, 1⟩]
        : List WordSettings) ≠ [])
    ∧ ((((groupChunks [⟨"LOUD", "+50Hz", "+0%", none, none, 1000, "center", 1, none, none, none, 1⟩,
       ⟨"quiet", "-50Hz", "+0%", none, none, 1000, "center", 1, none, none, none, 1⟩]).map
          Chunk.words).flatten
        = [⟨"LOUD", "+50Hz", "+0%", none, none, 1000, "center", 1, none, none, none, 1⟩,
       ⟨"quiet", "-50Hz", "+0%", none, none, 1000, "center", 1, none, none, none, 1⟩].map
           WordSettings.text)
    ∧ (∃ segs : List (List WordSettings),
        segs.flatten = [⟨"LOUD", "+50Hz", "+0%", none, none, 1000, "center", 1, none, none, none, 1⟩,
       ⟨"quiet", "-50Hz", "+0%", none, none, 1000, "center", 1, none, none, none, 1⟩]
        ∧ (groupChunks [⟨"LOUD", "+50Hz", "+0%", none, none, 1000, "center", 1, none, none, none, 1⟩,
       ⟨"quiet", "-50Hz", "+0%", none, none, 1000, "center", 1, none, none, none, 1⟩]).map Chunk.words
            = segs.map (fun s => s.map WordSettings.text)
        ∧ List.Forall₂ (fun (c : Chunk) (s : List WordSettings) =>
            ∀ w ∈ s, w.pitch = c.pitch ∧ w.rate = c.rate)
            (groupChunks [⟨"LOUD", "+50Hz", "+0%", none, none, 1000, "center", 1, none, none, none, 1⟩,
       ⟨"quiet", "-50Hz", "+0%", none, none, 1000, "center", 1, none, none, none, 1⟩]) segs)
    ∧ List.Chain' (fun a b : Chunk => (a.pitch, a.rate) ≠ (b.pitch, b.rate))
        (groupChunks [⟨"LOUD", "+50Hz", "+0%", none, none, 1000, "center", 1, none, none, none, 1⟩,
       ⟨"quiet", "-50Hz", "+0%", none, none, 1000, "center", 1, none, none, none, 1⟩])
    ∧ (groupChunks [⟨"LOUD", "+50Hz", "+0%", none, none, 1000, "center", 1, none, none, none, 1⟩,
       ⟨"quiet", "-50Hz", "+0%", none, none, 1000, "center", 1, none, none, none, 1⟩]).length
        = countRuns
            (([⟨"LOUD", "+50Hz", "+0%", none, none, 1000, "center", 1, none, none, none, 1⟩,
       ⟨"quiet", "-50Hz", "+0%", none, none, 1000, "center", 1, none, none, none, 1⟩]
        : List WordSettings).map fun w => (w.pitch, w.rate))) :=
  ⟨by simp, C1_chunk_partition _ (by simp)⟩

theorem toDec_not_mem_of_not_digit {c : Char} (hc : c.isDigit = false) (n : Nat) :
    c ∉ toDec n := by
  intro hm
  have := toDec_all_digits n c hm
  rw [hc] at this
  exact Bool.false_ne_true this

theorem renderSigned_no_char {c : Char} (hc : c.isDigit = false)
    (hplus : c ≠ '+') (hminus : c ≠ '-') (N : Int) : c ∉ renderSigned N := by
  unfold renderSigned
  split
  · intro hm
    rcases List.mem_cons.mp hm with h | h
    · exact hplus h
    · exact toDec_not_mem_of_not_digit hc _ h
  · intro hm
    rcases List.mem_cons.mp hm with h | h
    · exact hminus h
    · exact toDec_not_mem_of_not_digit hc _ h

theorem pyParseInt_toDec (n : Nat) : pyParseInt (toDec n) = some (n : Int) := by
  obtain ⟨c, cs, hcons⟩ : ∃ c cs, toDec n = c :: cs := by
    cases h : toDec n with
    | nil => exact absurd h (toDec_ne_nil n)
    | cons c cs => exact ⟨c, cs, rfl⟩
  have hdig : c.isDigit = true := toDec_all_digits n c (by rw [hcons]; simp)
  have hne1 : ¬(c = '-') := by rintro rfl; simp at hdig
  have hne2 : ¬(c = '+') := by rintro rfl; simp at hdig
  rw [hcons]
  simp only [pyParseInt, if_neg hne1, if_neg hne2]
  rw [← hcons, parseNatGo_zero_toDec]
  rfl

theorem pyParseInt_neg_toDec (n : Nat) : pyParseInt ('-' :: toDec n) = some (-(n : Int)) := by
  simp only [pyParseInt, if_pos rfl, toDec_ne_nil n, if_neg (toDec_ne_nil n)]
  rw [parseNatGo_zero_toDec]
  rfl

/-- Stripping `+` from `renderSigned N` and parsing recovers `N`. -/
theorem pyParseInt_strip_renderSigned (N : Int) :
    pyParseInt (replaceList ['+'] [] (renderSigned N)) = some N := by
  unfold renderSigned
  split
  · next h =>
    rw [replaceList_single_del]
    simp only [List.filter_cons]
    norm_num
    have hplus : ('+' : Char) ∉ toDec N.toNat :=
      toDec_not_mem_of_not_digit (by decide) _
    rw [List.filter_eq_self.mpr (by intro c hc; simp; rintro rfl; exact hplus hc)]
    rw [pyParseInt_toDec]
    congr 1
    exact Int.toNat_of_nonneg h
  · next h =>
    rw [replaceList_single_del]
    simp only [List.filter_cons]
    norm_num
    have hplus : ('+' : Char) ∉ toDec N.natAbs :=
      toDec_not_mem_of_not_digit (by decide) _
    rw [List.filter_eq_self.mpr (by intro c hc; simp; rintro rfl; exact hplus hc)]
    rw [if_neg (by decide : ¬('-' = '+'))]
    rw [pyParseInt_neg_toDec]
    congr 1
    omega

/-- The numeric-extraction pipeline of `_validate_param` on a rendered pitch
string `±N` ++ `Hz` recovers `N`. -/
theorem extract_pitch (N : Int) :
    pyParseInt (replaceList ['+'] []
      (replaceList ['H', 'z'] [] (replaceList ['%'] [] (renderSigned N ++ ['H', 'z']))))
      = some N := by
  have hpct : ('%' : Char) ∉ renderSigned N ++ ['H', 'z'] := by
    intro hm
    rcases List.mem_append.mp hm with h | h
    · exact renderSigned_no_char (by decide) (by decide) (by decide) N h
    · simp at h
  rw [replaceList_single_del_of_not_mem _ _ hpct]
  rw [replaceList_Hz_append _ (renderSigned_no_char (by decide) (by decide) (by decide) N)]
  exact pyParseInt_strip_renderSigned N

/-- The numeric-extraction pipeline of `_validate_param` on a rendered rate
string `±N` ++ `%` recovers `N`. -/
theorem extract_rate (N : Int) :
    pyParseInt (replaceList ['+'] []
      (replaceList ['H', 'z'] [] (replaceList ['%'] [] (renderSigned N ++ ['%']))))
      = some N := by
  have hstep : replaceList ['%'] [] (renderSigned N ++ ['%']) = renderSigned N := by
    rw [replaceList_single_del]
    rw [List.filter_append]
    rw [List.filter_eq_self.mpr (by
      intro c hc
      simp only [ne_eq, decide_eq_true_eq]
      rintro rfl
      exact renderSigned_no_char (by decide) (by decide) (by decide) N hc)]
    simp
  rw [hstep]
  rw [replaceList_Hz_of_no_H _ (renderSigned_no_char (by decide) (by decide) (by decide) N)]
  exact pyParseInt_strip_renderSigned N

/-- C6: `_validate_param` clamps a rendered pitch `±N Hz` to [-100, 100] and a
rendered rate `±N %` to [-50, 100], keeping the signed textual form; in-range
values are returned unchanged; `"+150%"` normalizes to `"+100%"` and
`"-999Hz"` to `"-100Hz"`. -/
theorem C6_param_clamp (N : Int) :
    (validate_param (renderParam N ['H', 'z']) "pitch"
        = renderParam (max (-100) (min 100 N)) ['H', 'z']
      ∧ -100 ≤ max (-100) (min 100 N) ∧ max (-100) (min 100 N) ≤ 100)
    ∧ (validate_param (renderParam N ['%']) "rate"
        = renderParam (max (-50) (min 100 N)) ['%']
      ∧ -50 ≤ max (-50) (min 100 N) ∧ max (-50) (min 100 N) ≤ 100)
    ∧ (-100 ≤ N → N ≤ 100 →
        validate_param (renderParam N ['H', 'z']) "pitch" = renderParam N ['H', 'z'])
    ∧ (-50 ≤ N → N ≤ 100 →
        validate_param (renderParam N ['%']) "rate" = renderParam N ['%'])
    ∧ validate_param "+150%" "rate" = "+100%"
    ∧ validate_param "-999Hz" "pitch" = "-100Hz" := by
  have hpitch : validate_param (renderParam N ['H', 'z']) "pitch"
      = renderParam (max (-100) (min 100 N)) ['H', 'z'] := by
    simp only [validate_param, renderParam, extract_pitch]
    simp
  have hrate : validate_param (renderParam N ['%']) "rate"
      = renderParam (max (-50) (min 100 N)) ['%'] := by
    simp only [validate_param, renderParam, extract_rate]
    simp
  refine ⟨⟨hpitch, le_max_left _ _, ?_⟩, ⟨hrate, le_max_left _ _, ?_⟩, ?_, ?_, ?_, ?_⟩
  · exact max_le (by norm_num) (min_le_left _ _)
  · exact max_le (by norm_num) (min_le_left _ _)
  · intro h1 h2
    rw [hpitch]
    congr 2
    omega
  · intro h1 h2
    rw [hrate]
    congr 2
    omega
  · decide
  · decide

/-- Witness for C6 at N = 42: in-range pitch and rate are unchanged. -/
theorem C6_param_clamp_witness :
    (-100 : Int) ≤ 42 ∧ (42 : Int) ≤ 100
      ∧ validate_param (renderParam 42 ['H', 'z']) "pitch" = renderParam 42 ['H', 'z'] :=
  ⟨by norm_num, by norm_num, (C6_param_clamp 42).2.2.1 (by norm_num) (by norm_num)⟩

/-- C3 counterexample: a sentence consisting of the single punctuation word
"." yields exactly one chunk, and `_process_sentence` issues a synthesis
request for it even though its text has no alphanumeric character. -/
theorem C3_counterexample :
    synthesisRequests
        ⟨".", [⟨".", "+0Hz", "+0%", none, none, 1000, "center", 1, none, none, none, 1⟩],
          "en-US-ChristopherNeural", "+0Hz", "+0%", some "assets/background/gameplay.mp4",
          "default"⟩
      = [{ text := ".", voice := "en-US-ChristopherNeural", pitch := "+0Hz", rate := "+0%" }]
    ∧ containsAlnum "." = false := by
  constructor
  · decide
  · decide

/-- C3 amended: punctuation-only chunks are dropped before synthesis only
when the sentence yields two or more chunks; in that case every issued
request's text contains an alphanumeric character. -/
theorem C3_amended_punct_drop (s : SentenceSettings) (h1 : s.words ≠ [])
    (h2 : (groupChunks s.words).length ≠ 1) :
    ∀ r ∈ synthesisRequests s, containsAlnum r.text = true := by
  intro r hr
  unfold synthesisRequests at hr
  rw [if_neg h1] at hr
  simp only [if_neg h2] at hr
  obtain ⟨c, _, hc⟩ := List.mem_filterMap.mp hr
  by_cases halnum : containsAlnum (joinWords c.words) = true
  · rw [if_pos halnum] at hc
    cases hc
    exact halnum
  · rw [if_neg halnum] at hc
    cases hc

/-- Witness for the amended C3: a two-chunk sentence with a punctuation-only
second chunk issues only requests with alphanumeric text. -/
theorem C3_amended_punct_drop_witness :
    (([⟨"Hi", "+0Hz", "+0%", none, none, 1000, "center", 1, none, none, none, 1⟩,
       ⟨".", "+5Hz", "+0%", none, none, 1000, "center", 1, none, none, none, 1⟩]
        : List WordSettings) ≠ [])
    ∧ ((groupChunks [⟨"Hi", "+0Hz", "+0%", none, none, 1000, "center", 1, none, none, none, 1⟩,
       ⟨".", "+5Hz", "+0%", none, none, 1000, "center", 1, none, none, none, 1⟩]).length ≠ 1)
    ∧ ∀ r ∈ synthesisRequests
        ⟨"Hi .", [⟨"Hi", "+0Hz", "+0%", none, none, 1000, "center", 1, none, none, none, 1⟩,
          ⟨".", "+5Hz", "+0%", none, none, 1000, "center", 1, none, none, none, 1⟩],
          "en-US-ChristopherNeural", "+0Hz", "+0%", some "assets/background/gameplay.mp4",
          "default"⟩,
        containsAlnum r.text = true :=
  ⟨by decide, by decide,
    C3_amended_punct_drop _ (by decide) (by decide)⟩

theorem padZeros_all_digits (w n : Nat) : ∀ c ∈ padZeros w (toDec n), c.isDigit = true := by
  intro c hc
  rcases List.mem_append.mp hc with h | h
  · rw [List.eq_of_mem_replicate h]; decide
  · exact toDec_all_digits n c h

theorem parseNatGo_zeros (k : Nat) (ds : List Char) :
    parseNatGo 0 (List.replicate k '0' ++ ds) = parseNatGo 0 ds := by
  induction k with
  | zero => simp
  | succ k ih =>
    simp only [List.replicate_succ, List.cons_append, parseNatGo]
    norm_num [digitVal]
    exact ih

theorem pyParseInt_padZeros (w n : Nat) :
    pyParseInt (padZeros w (toDec n)) = some (n : Int) := by
  unfold padZeros
  generalize hk : w - (toDec n).length = k
  cases k with
  | zero => simpa using pyParseInt_toDec n
  | succ k =>
    simp only [List.replicate_succ, List.cons_append]
    show pyParseInt ('0' :: (List.replicate k '0' ++ toDec n)) = some (n : Int)
    simp only [pyParseInt, if_neg (by decide : ¬(('0' : Char) = '-')),
      if_neg (by decide : ¬(('0' : Char) = '+'))]
    have : parseNatGo 0 ('0' :: (List.replicate k '0' ++ toDec n))
        = parseNatGo 0 (toDec n) := by
      show parseNatGo 0 (List.replicate (k + 1) '0' ++ toDec n) = _
      exact parseNatGo_zeros (k + 1) (toDec n)
    rw [this, parseNatGo_zero_toDec]
    rfl

theorem digits_map_comma (s : List Char) (hs : ∀ c ∈ s, c.isDigit = true) :
    s.map (fun c => if c = ',' then ':' else c) = s := by
  induction s with
  | nil => rfl
  | cons c rest ih =>
    have hc : c.isDigit = true := hs c (List.mem_cons_self c rest)
    have hcne : ¬(c = ',') := by rintro rfl; simp at hc
    simp only [List.map_cons, if_neg hcne]
    rw [ih (fun x hx => hs x (List.mem_cons_of_mem c hx))]

theorem colon_not_mem_of_digits (s : List Char) (hs : ∀ c ∈ s, c.isDigit = true) :
    ':' ∉ s := by
  intro hm
  have := hs _ hm
  simp at this

/-- C10: converting nonnegative milliseconds to SRT text and parsing back is
the identity, and the rendered minutes, seconds and milliseconds field values
are in range. -/
theorem C10_srt_roundtrip (t : Int) (ht : 0 ≤ t) :
    srt_time_to_ms (ms_to_srt_time t) = t
    ∧ 0 ≤ (t.fmod 3600000).fdiv 60000 ∧ (t.fmod 3600000).fdiv 60000 < 60
    ∧ 0 ≤ ((t.fmod 3600000).fmod 60000).fdiv 1000
    ∧ ((t.fmod 3600000).fmod 60000).fdiv 1000 < 60
    ∧ 0 ≤ ((t.fmod 3600000).fmod 60000).fmod 1000
    ∧ ((t.fmod 3600000).fmod 60000).fmod 1000 < 1000 := by
  have e1 : t.fdiv 3600000 = t / 3600000 := Int.fdiv_eq_ediv t (by norm_num)
  have e2 : t.fmod 3600000 = t % 3600000 := Int.fmod_eq_emod t (by norm_num)
  have e3 : (t.fmod 3600000).fdiv 60000 = (t % 3600000) / 60000 := by
    rw [e2]; exact Int.fdiv_eq_ediv _ (by norm_num)
  have e4 : (t.fmod 3600000).fmod 60000 = (t % 3600000) % 60000 := by
    rw [e2]; exact Int.fmod_eq_emod _ (by norm_num)
  have e5 : ((t.fmod 3600000).fmod 60000).fdiv 1000 = ((t % 3600000) % 60000) / 1000 := by
    rw [e4]; exact Int.fdiv_eq_ediv _ (by norm_num)
  have e6 : ((t.fmod 3600000).fmod 60000).fmod 1000 = ((t % 3600000) % 60000) % 1000 := by
    rw [e4]; exact Int.fmod_eq_emod _ (by norm_num)
  have hh : 0 ≤ t.fdiv 3600000 := by rw [e1]; omega
  have hm0 : 0 ≤ (t.fmod 3600000).fdiv 60000 := by rw [e3]; omega
  have hs0 : 0 ≤ ((t.fmod 3600000).fmod 60000).fdiv 1000 := by rw [e5]; omega
  have hms0 : 0 ≤ ((t.fmod 3600000).fmod 60000).fmod 1000 := by rw [e6]; omega
  refine ⟨?_, hm0, by rw [e3]; omega, hs0, by rw [e5]; omega, hms0, by rw [e6]; omega⟩
  unfold ms_to_srt_time
  show srt_time_to_ms
      (formatPad 2 (t.fdiv 3600000) ++ ':' ::
        (formatPad 2 ((t.fmod 3600000).fdiv 60000) ++ ':' ::
          (formatPad 2 (((t.fmod 3600000).fmod 60000).fdiv 1000) ++ ',' ::
            formatPad 3 (((t.fmod 3600000).fmod 60000).fmod 1000)))) = t
  rw [show formatPad 2 (t.fdiv 3600000)
      = padZeros 2 (toDec (t.fdiv 3600000).toNat) from if_neg (by omega)]
  rw [show formatPad 2 ((t.fmod 3600000).fdiv 60000)
      = padZeros 2 (toDec ((t.fmod 3600000).fdiv 60000).toNat) from if_neg (by omega)]
  rw [show formatPad 2 (((t.fmod 3600000).fmod 60000).fdiv 1000)
      = padZeros 2 (toDec (((t.fmod 3600000).fmod 60000).fdiv 1000).toNat) from
      if_neg (by omega)]
  rw [show formatPad 3 (((t.fmod 3600000).fmod 60000).fmod 1000)
      = padZeros 3 (toDec (((t.fmod 3600000).fmod 60000).fmod 1000).toNat) from
      if_neg (by omega)]
  unfold srt_time_to_ms
  rw [replaceList_single]
  simp only [List.map_append, List.map_cons]
  rw [digits_map_comma _ (padZeros_all_digits _ _), digits_map_comma _ (padZeros_all_digits _ _),
    digits_map_comma _ (padZeros_all_digits _ _), digits_map_comma _ (padZeros_all_digits _ _)]
  rw [if_neg (by decide : ¬((':' : Char) = ','))]
  simp only [if_true]
  rw [splitOnChar_append _ _ _ (colon_not_mem_of_digits _ (padZeros_all_digits _ _))]
  rw [splitOnChar_append _ _ _ (colon_not_mem_of_digits _ (padZeros_all_digits _ _))]
  rw [splitOnChar_append _ _ _ (colon_not_mem_of_digits _ (padZeros_all_digits _ _))]
  rw [splitOnChar_no_sep _ _ (colon_not_mem_of_digits _ (padZeros_all_digits _ _))]
  simp only [pyParseInt_padZeros]
  rw [Int.toNat_of_nonneg hh, Int.toNat_of_nonneg hm0, Int.toNat_of_nonneg hs0,
    Int.toNat_of_nonneg hms0]
  rw [e1, e3, e5, e6]
  omega

/-- Witness for C10 at t = 3723456 ms, which renders as `01:02:03,456`. -/
theorem C10_srt_roundtrip_witness :
    (0 : Int) ≤ 3723456 ∧
      (srt_time_to_ms (ms_to_srt_time 3723456) = 3723456
      ∧ 0 ≤ ((3723456 : Int).fmod 3600000).fdiv 60000
      ∧ ((3723456 : Int).fmod 3600000).fdiv 60000 < 60
      ∧ 0 ≤ (((3723456 : Int).fmod 3600000).fmod 60000).fdiv 1000
      ∧ (((3723456 : Int).fmod 3600000).fmod 60000).fdiv 1000 < 60
      ∧ 0 ≤ (((3723456 : Int).fmod 3600000).fmod 60000).fmod 1000
      ∧ (((3723456 : Int).fmod 3600000).fmod 60000).fmod 1000 < 1000) :=
  ⟨by norm_num, C10_srt_roundtrip 3723456 (by norm_num)⟩

theorem refineWordsGo_length (total n : Nat) (D : ℚ) :
    ∀ (ws : List WordData) (c : ℚ), (refineWordsGo total n D c ws).length = ws.length := by
  intro ws
  induction ws with
  | nil => intro c; rfl
  | cons w rest ih =>
    intro c
    simp only [refineWordsGo, List.length_cons, ih]

theorem refineWordsGo_get (total n : Nat) (D : ℚ) :
    ∀ (ws : List WordData) (c : ℚ) (i : Nat) (w₀ : WordData),
      ws.get? i = some w₀ →
      (refineWordsGo total n D c ws).get? i
        = some (refinedWordAt total n D
            (c + ((ws.take i).map (fun w => wordDur total n D w.text.length)).sum) w₀) := by
  intro ws
  induction ws with
  | nil => intro c i w₀ h; simp at h
  | cons w rest ih =>
    intro c i w₀ h
    cases i with
    | zero =>
      simp only [List.get?] at h
      cases h
      simp [refineWordsGo]
    | succ i =>
      simp only [List.get?] at h
      have := ih (c + wordDur total n D w.text.length) i w₀ h
      simp only [refineWordsGo, List.get?]
      rw [this]
      congr 2
      simp only [List.take_succ_cons, List.map_cons, List.sum_cons]
      ring

theorem refineWordsGo_chain (total n : Nat) (D : ℚ) :
    ∀ (ws : List WordData) (c : ℚ),
      List.Chain' (fun a b : WordData => b.start_ms = a.end_ms)
        (refineWordsGo total n D c ws) := by
  intro ws
  induction ws with
  | nil => intro c; simp [refineWordsGo]
  | cons w rest ih =>
    intro c
    show List.Chain' _ (refinedWordAt total n D c w ::
      refineWordsGo total n D (c + wordDur total n D w.text.length) rest)
    refine List.chain'_cons'.mpr ⟨?_, ih _⟩
    intro b hb
    cases rest with
    | nil => simp [refineWordsGo] at hb
    | cons w' rest' =>
      simp only [refineWordsGo, List.head?_cons, Option.mem_def, Option.some.injEq] at hb
      subst hb
      rfl

theorem wordDur_nonneg (total n : Nat) {D : ℚ} (hD : 0 ≤ D) (len : Nat) :
    0 ≤ wordDur total n D len := by
  unfold wordDur
  split
  · exact mul_nonneg (div_nonneg (by positivity) (by positivity)) hD
  · exact div_nonneg hD (by positivity)

theorem refineWordsGo_start_le_end (total n : Nat) {D : ℚ} (hD : 0 ≤ D) :
    ∀ (ws : List WordData) (c : ℚ), 0 ≤ c →
      ∀ w ∈ refineWordsGo total n D c ws, w.start_ms ≤ w.end_ms := by
  intro ws
  induction ws with
  | nil => intro c hc w hw; simp [refineWordsGo] at hw
  | cons w0 rest ih =>
    intro c hc w hw
    have hwd := wordDur_nonneg total n hD w0.text.length
    simp only [refineWordsGo, List.mem_cons] at hw
    rcases hw with rfl | hw
    · show pyInt c ≤ pyInt (c + wordDur total n D w0.text.length)
      rw [pyInt_eq_floor hc, pyInt_eq_floor (by linarith)]
      exact Int.floor_le_floor (by linarith)
    · exact ih (c + wordDur total n D w0.text.length) (by linarith) w hw

theorem refineWordsGo_start_mono (total n : Nat) {D : ℚ} (hD : 0 ≤ D) :
    ∀ (ws : List WordData) (c : ℚ), 0 ≤ c →
      List.Chain' (fun a b : WordData => a.start_ms ≤ b.start_ms)
        (refineWordsGo total n D c ws) := by
  intro ws
  induction ws with
  | nil => intro c hc; simp [refineWordsGo]
  | cons w rest ih =>
    intro c hc
    have hwd := wordDur_nonneg total n hD w.text.length
    show List.Chain' _ (refinedWordAt total n D c w ::
      refineWordsGo total n D (c + wordDur total n D w.text.length) rest)
    refine List.chain'_cons'.mpr ⟨?_, ih _ (by linarith)⟩
    intro b hb
    cases rest with
    | nil => simp [refineWordsGo] at hb
    | cons w' rest' =>
      simp only [refineWordsGo, List.head?_cons, Option.mem_def, Option.some.injEq] at hb
      subst hb
      show pyInt c ≤ pyInt (c + wordDur total n D w.text.length)
      rw [pyInt_eq_floor hc, pyInt_eq_floor (by linarith)]
      exact Int.floor_le_floor (by linarith)

theorem refineWordsGo_getLast (total n : Nat) (D : ℚ) :
    ∀ (ws : List WordData) (c : ℚ), ws ≠ [] →
      ∃ lw, (refineWordsGo total n D c ws).getLast? = some lw
        ∧ lw.end_ms = pyInt (c + (ws.map (fun w => wordDur total n D w.text.length)).sum) := by
  intro ws
  induction ws with
  | nil => intro c h; exact absurd rfl h
  | cons w rest ih =>
    intro c _
    cases rest with
    | nil =>
      refine ⟨refinedWordAt total n D c w, rfl, ?_⟩
      simp [refinedWordAt]
    | cons w' rest' =>
      obtain ⟨lw, h1, h2⟩ := ih (c + wordDur total n D w.text.length) (by simp)
      refine ⟨lw, ?_, ?_⟩
      · show (refinedWordAt total n D c w ::
          refineWordsGo total n D (c + wordDur total n D w.text.length) (w' :: rest')).getLast?
            = some lw
        rw [show refineWordsGo total n D (c + wordDur total n D w.text.length) (w' :: rest')
            = refinedWordAt total n D (c + wordDur total n D w.text.length) w' ::
              refineWordsGo total n D
                (c + wordDur total n D w.text.length + wordDur total n D w'.text.length) rest'
          from rfl]
        rw [List.getLast?_cons_cons]
        exact h1
      · rw [h2]
        congr 1
        simp only [List.map_cons, List.sum_cons]
        ring

theorem sum_wordDur (ws : List WordData) (hne : ws ≠ []) (D : ℚ) :
    (ws.map (fun w => wordDur (totalChars ws) ws.length D w.text.length)).sum = D := by
  by_cases htot : 0 < totalChars ws
  · have hfun : (fun w : WordData => wordDur (totalChars ws) ws.length D w.text.length)
        = fun w => (w.text.length : ℚ) * (D / (totalChars ws : ℚ)) := by
      funext w
      unfold wordDur
      rw [if_pos htot]
      ring
    rw [hfun, List.sum_map_mul_right]
    have hcast : (ws.map fun w => (w.text.length : ℚ)).sum = ((totalChars ws : Nat) : ℚ) := by
      unfold totalChars
      rw [Nat.cast_list_sum, List.map_map]
      rfl
    rw [hcast]
    have : ((totalChars ws : Nat) : ℚ) ≠ 0 := by
      have h2 : totalChars ws ≠ 0 := by omega
      exact_mod_cast h2
    field_simp
  · have hfun : (fun w : WordData => wordDur (totalChars ws) ws.length D w.text.length)
        = fun _ => D / (ws.length : ℚ) := by
      funext w
      unfold wordDur
      rw [if_neg htot]
    rw [hfun, List.map_const', List.sum_replicate, nsmul_eq_mul]
    have hn : (ws.length : ℚ) ≠ 0 := by
      have : ws.length ≠ 0 := by
        intro h
        exact hne (List.length_eq_zero.mp h)
      exact_mod_cast this
    field_simp

theorem refineSentenceTS_start (ct D : ℚ) (ts : SentenceTS) :
    (refineSentenceTS ct D ts).start_ms = pyInt ct := rfl

theorem refineSentenceTS_end (ct D : ℚ) (ts : SentenceTS) :
    (refineSentenceTS ct D ts).end_ms = pyInt (ct + D) := rfl

theorem refineSentenceTS_idx (ct D : ℚ) (ts : SentenceTS) :
    (refineSentenceTS ct D ts).sentence_index = ts.sentence_index := rfl

theorem refineSentenceTS_words (ct D : ℚ) (ts : SentenceTS) (h : ts.words ≠ []) :
    (refineSentenceTS ct D ts).words
      = refineWordsGo (totalChars ts.words) ts.words.length D ((pyInt ct : Int) : ℚ) ts.words := by
  unfold refineSentenceTS
  simp [h]

/-- C2: for a sentence entry refined with measured duration `D ≥ 0` at a
nonnegative running cursor and a non-empty word list, each word's interval is
the integer truncation of the cursor advanced by proportional durations
(`D * len / total_chars`, or an even split when `total_chars = 0`), intervals
are contiguous and non-overlapping with non-decreasing starts, and the last
word's end does not exceed the sentence `end_ms` (so in particular not by
more than 1 ms per word). -/
theorem C2_timing_partition (ts : SentenceTS) (ct D : ℚ) (hws : ts.words ≠ [])
    (hct : 0 ≤ ct) (hD : 0 ≤ D) :
    ((refineSentenceTS ct D ts).words.length = ts.words.length)
    ∧ (∀ i w w₀, (refineSentenceTS ct D ts).words.get? i = some w →
        ts.words.get? i = some w₀ →
        w.start_ms = pyInt (((pyInt ct : Int) : ℚ)
            + ((ts.words.take i).map
                (fun v => wordDur (totalChars ts.words) ts.words.length D v.text.length)).sum)
        ∧ w.end_ms = pyInt (((pyInt ct : Int) : ℚ)
            + ((ts.words.take i).map
                (fun v => wordDur (totalChars ts.words) ts.words.length D v.text.length)).sum
            + wordDur (totalChars ts.words) ts.words.length D w₀.text.length))
    ∧ List.Chain' (fun a b : WordData => b.start_ms = a.end_ms) (refineSentenceTS ct D ts).words
    ∧ (∀ w ∈ (refineSentenceTS ct D ts).words, w.start_ms ≤ w.end_ms)
    ∧ List.Pairwise (fun a b : WordData => a.start_ms ≤ b.start_ms)
        (refineSentenceTS ct D ts).words
    ∧ (∀ lw, (refineSentenceTS ct D ts).words.getLast? = some lw →
        lw.end_ms ≤ (refineSentenceTS ct D ts).end_ms
        ∧ lw.end_ms ≤ (refineSentenceTS ct D ts).end_ms + ts.words.length) := by
  have hc0 : (0 : ℚ) ≤ ((pyInt ct : Int) : ℚ) := by
    rw [pyInt_eq_floor hct]
    exact_mod_cast Int.floor_nonneg.mpr hct
  have hcle : ((pyInt ct : Int) : ℚ) ≤ ct := by
    rw [pyInt_eq_floor hct]
    exact Int.floor_le ct
  rw [refineSentenceTS_words ct D ts hws]
  refine ⟨refineWordsGo_length _ _ _ _ _, ?_, refineWordsGo_chain _ _ _ _ _,
    refineWordsGo_start_le_end _ _ hD _ _ hc0, ?_, ?_⟩
  · intro i w w₀ h1 h2
    rw [refineWordsGo_get (totalChars ts.words) ts.words.length D ts.words
      (((pyInt ct : Int) : ℚ)) i w₀ h2] at h1
    cases h1
    exact ⟨rfl, rfl⟩
  · haveI : IsTrans WordData (fun a b : WordData => a.start_ms ≤ b.start_ms) :=
      ⟨fun _ _ _ h1 h2 => le_trans h1 h2⟩
    exact List.chain'_iff_pairwise.mp (refineWordsGo_start_mono _ _ hD _ _ hc0)
  · intro lw hlast
    obtain ⟨lw', h1, h2⟩ := refineWordsGo_getLast (totalChars ts.words) ts.words.length D
      ts.words (((pyInt ct : Int) : ℚ)) hws
    rw [hlast] at h1
    cases h1
    rw [sum_wordDur ts.words hws D] at h2
    have hbound : lw.end_ms ≤ (refineSentenceTS ct D ts).end_ms := by
      have e1 : pyInt (((pyInt ct : Int) : ℚ) + D) = ⌊((pyInt ct : Int) : ℚ) + D⌋ :=
        pyInt_eq_floor (by linarith)
      have e2 : pyInt (ct + D) = ⌊ct + D⌋ := pyInt_eq_floor (by linarith)
      rw [h2, refineSentenceTS_end, e1, e2]
      exact Int.floor_le_floor (by linarith)
    refine ⟨hbound, ?_⟩
    have : (0 : Int) ≤ (ts.words.length : Int) := Int.natCast_nonneg _
    omega

/-- Witness for C2: one sentence of two words "Hi"/"there", cursor 0,
measured duration 2000 ms. -/
theorem C2_timing_partition_witness :
    (((⟨0, "Hi there", 0, 0,
        [⟨"Hi", 0, 0, none, none⟩, ⟨"there", 0, 0, none, none⟩]⟩ : SentenceTS)).words ≠ [])
    ∧ ((0 : ℚ) ≤ 0) ∧ ((0 : ℚ) ≤ 2000)
    ∧ (((refineSentenceTS 0 2000 ⟨0, "Hi there", 0, 0,
          [⟨"Hi", 0, 0, none, none⟩, ⟨"there", 0, 0, none, none⟩]⟩).words.length
        = ([⟨"Hi", 0, 0, none, none⟩, ⟨"there", 0, 0, none, none⟩] : List WordData).length)
      ∧ (∀ i w w₀, (refineSentenceTS 0 2000 ⟨0, "Hi there", 0, 0,
            [⟨"Hi", 0, 0, none, none⟩, ⟨"there", 0, 0, none, none⟩]⟩).words.get? i = some w →
          ([⟨"Hi", 0, 0, none, none⟩, ⟨"there", 0, 0, none, none⟩] : List WordData).get? i
            = some w₀ →
          w.start_ms = pyInt (((pyInt 0 : Int) : ℚ)
              + ((([⟨"Hi", 0, 0, none, none⟩, ⟨"there", 0, 0, none, none⟩]
                  : List WordData).take i).map
                  (fun v => wordDur
                    (totalChars [⟨"Hi", 0, 0, none, none⟩, ⟨"there", 0, 0, none, none⟩])
                    ([⟨"Hi", 0, 0, none, none⟩, ⟨"there", 0, 0, none, none⟩]
                      : List WordData).length 2000 v.text.length)).sum)
          ∧ w.end_ms = pyInt (((pyInt 0 : Int) : ℚ)
              + ((([⟨"Hi", 0, 0, none, none⟩, ⟨"there", 0, 0, none, none⟩]
                  : List WordData).take i).map
                  (fun v => wordDur
                    (totalChars [⟨"Hi", 0, 0, none, none⟩, ⟨"there", 0, 0, none, none⟩])
                    ([⟨"Hi", 0, 0, none, none⟩, ⟨"there", 0, 0, none, none⟩]
                      : List WordData).length 2000 v.text.length)).sum
              + wordDur (totalChars [⟨"Hi", 0, 0, none, none⟩, ⟨"there", 0, 0, none, none⟩])
                  ([⟨"Hi", 0, 0, none, none⟩, ⟨"there", 0, 0, none, none⟩]
                    : List WordData).length 2000 w₀.text.length))
      ∧ List.Chain' (fun a b : WordData => b.start_ms = a.end_ms)
          (refineSentenceTS 0 2000 ⟨0, "Hi there", 0, 0,
            [⟨"Hi", 0, 0, none, none⟩, ⟨"there", 0, 0, none, none⟩]⟩).words
      ∧ (∀ w ∈ (refineSentenceTS 0 2000 ⟨0, "Hi there", 0, 0,
            [⟨"Hi", 0, 0, none, none⟩, ⟨"there", 0, 0, none, none⟩]⟩).words,
          w.start_ms ≤ w.end_ms)
      ∧ List.Pairwise (fun a b : WordData => a.start_ms ≤ b.start_ms)
          (refineSentenceTS 0 2000 ⟨0, "Hi there", 0, 0,
            [⟨"Hi", 0, 0, none, none⟩, ⟨"there", 0, 0, none, none⟩]⟩).words
      ∧ (∀ lw, (refineSentenceTS 0 2000 ⟨0, "Hi there", 0, 0,
            [⟨"Hi", 0, 0, none, none⟩, ⟨"there", 0, 0, none, none⟩]⟩).words.getLast?
              = some lw →
          lw.end_ms ≤ (refineSentenceTS 0 2000 ⟨0, "Hi there", 0, 0,
            [⟨"Hi", 0, 0, none, none⟩, ⟨"there", 0, 0, none, none⟩]⟩).end_ms
          ∧ lw.end_ms ≤ (refineSentenceTS 0 2000 ⟨0, "Hi there", 0, 0,
            [⟨"Hi", 0, 0, none, none⟩, ⟨"there", 0, 0, none, none⟩]⟩).end_ms
              + ([⟨"Hi", 0, 0, none, none⟩, ⟨"there", 0, 0, none, none⟩]
                : List WordData).length)) :=
  ⟨by simp, le_refl 0, by norm_num,
    C2_timing_partition _ 0 2000 (by simp) (le_refl 0) (by norm_num)⟩

theorem pyInt_add_int {c : ℚ} (hc : 0 ≤ c) (k : Int) (h : 0 ≤ pyInt c + k) :
    pyInt (c + (k : ℚ)) = pyInt c + k := by
  rw [pyInt_eq_floor hc] at h ⊢
  have hcast : ((⌊c⌋ + k : Int) : ℚ) ≤ c + k := by
    push_cast
    have := Int.floor_le c
    linarith
  have h0 : (0 : ℚ) ≤ ((⌊c⌋ + k : Int) : ℚ) := by exact_mod_cast h
  have h1 : (0 : ℚ) ≤ c + (k : ℚ) := le_trans h0 hcast
  rw [pyInt_eq_floor h1, Int.floor_add_int]

/-- C9 counterexample: with measured duration 1 ms over words "a"/"b", the
second word's cursor is the non-integral 1/2; an image offset of -1 gives
`absolute_start_ms = int(1/2 - 1) = 0`, but `word.start_ms + offset
= 0 + (-1) = -1`: the estimator does not set `absolute_start_ms` to
`start_ms + offset` here. -/
theorem C9_counterexample :
    (((refineSentenceTS 0 1 exSentenceTS).words.get? 1).map
        (fun w => (w.start_ms, w.image.map (fun im => (im.start_ms, im.absolute_start_ms)))))
      = some (0, some (some (-1), some 0))
    ∧ (0 : Int) + (-1) ≠ (0 : Int) := by
  refine ⟨?_, by decide⟩
  have hne : exSentenceTS.words ≠ [] := by decide
  have hget : exSentenceTS.words.get? 1 = some exWordB := by decide
  have hW := refineWordsGo_get (totalChars exSentenceTS.words) exSentenceTS.words.length 1
      exSentenceTS.words (((pyInt 0 : Int) : ℚ)) 1 exWordB hget
  rw [refineSentenceTS_words 0 1 exSentenceTS hne, hW]
  have hcursor : ((pyInt 0 : Int) : ℚ)
      + ((exSentenceTS.words.take 1).map
          (fun v => wordDur (totalChars exSentenceTS.words) exSentenceTS.words.length 1
            v.text.length)).sum = 1/2 := by
    rw [pyInt_zero]
    rw [show exSentenceTS.words.take 1 = [exWordA] from by decide]
    simp only [List.map_cons, List.map_nil, List.sum_cons, List.sum_nil]
    rw [show totalChars exSentenceTS.words = 2 from by decide,
      show exSentenceTS.words.length = 2 from by decide,
      show exWordA.text.length = 1 from by decide]
    unfold wordDur
    norm_num
  rw [hcursor]
  simp only [Option.map_some']
  simp only [refinedWordAt, refineImage, exWordB, exImage]
  norm_num
  refine ⟨?_, ?_, ?_⟩
  · rw [pyInt_eq_floor (by norm_num)]
    norm_num
  · rfl
  · simp only [refineImage, Option.getD]
    rw [show ((1 : ℚ)/2 + ((-1 : Int) : ℚ)) = -(1/2) by push_cast; ring]
    rw [pyInt_eq_ceil (by norm_num)]
    norm_num

/-- C9 amended: for every word carrying an image or sound-effect descriptor,
the estimator sets `absolute_start_ms = word.start_ms + offset` (missing/null
offset treated as 0) whenever `word.start_ms + offset` is nonnegative — in
particular for every nonnegative offset; when the shifted position falls
below zero, truncation toward zero can exceed `start_ms + offset`. -/
theorem C9_amended_overlay (ts : SentenceTS) (ct D : ℚ) (hws : ts.words ≠ [])
    (hct : 0 ≤ ct) (hD : 0 ≤ D) :
    ∀ i w w₀, (refineSentenceTS ct D ts).words.get? i = some w →
      ts.words.get? i = some w₀ →
      (∀ im₀, w₀.image = some im₀ → 0 ≤ w.start_ms + im₀.start_ms.getD 0 →
        ∃ im, w.image = some im
          ∧ im.absolute_start_ms = some (w.start_ms + im₀.start_ms.getD 0))
      ∧ (∀ au₀, w₀.audio = some au₀ → 0 ≤ w.start_ms + au₀.start_ms.getD 0 →
        ∃ au, w.audio = some au
          ∧ au.absolute_start_ms = some (w.start_ms + au₀.start_ms.getD 0)) := by
  have hc0 : (0 : ℚ) ≤ ((pyInt ct : Int) : ℚ) := by
    rw [pyInt_eq_floor hct]
    exact_mod_cast Int.floor_nonneg.mpr hct
  intro i w w₀ h1 h2
  rw [refineSentenceTS_words ct D ts hws] at h1
  rw [refineWordsGo_get (totalChars ts.words) ts.words.length D ts.words
    (((pyInt ct : Int) : ℚ)) i w₀ h2] at h1
  cases h1
  have hsum : (0 : ℚ) ≤ ((ts.words.take i).map
      (fun v => wordDur (totalChars ts.words) ts.words.length D v.text.length)).sum := by
    apply List.sum_nonneg
    intro q hq
    obtain ⟨v, _, rfl⟩ := List.mem_map.mp hq
    exact wordDur_nonneg _ _ hD _
  have hcur : (0 : ℚ) ≤ ((pyInt ct : Int) : ℚ) + ((ts.words.take i).map
      (fun v => wordDur (totalChars ts.words) ts.words.length D v.text.length)).sum := by
    linarith
  constructor
  · intro im₀ him hpos
    refine ⟨refineImage (((pyInt ct : Int) : ℚ)
      + ((ts.words.take i).map
          (fun v => wordDur (totalChars ts.words) ts.words.length D v.text.length)).sum) im₀,
      ?_, ?_⟩
    · show (w₀.image.map _) = _
      rw [him]
      rfl
    · show some (pyInt (_ + ((im₀.start_ms.getD 0 : Int) : ℚ))) = _
      congr 1
      exact pyInt_add_int hcur (im₀.start_ms.getD 0) hpos
  · intro au₀ hau hpos
    refine ⟨refineAudioDesc (((pyInt ct : Int) : ℚ)
      + ((ts.words.take i).map
          (fun v => wordDur (totalChars ts.words) ts.words.length D v.text.length)).sum) au₀,
      ?_, ?_⟩
    · show (w₀.audio.map _) = _
      rw [hau]
      rfl
    · show some (pyInt (_ + ((au₀.start_ms.getD 0 : Int) : ℚ))) = _
      congr 1
      exact pyInt_add_int hcur (au₀.start_ms.getD 0) hpos

/-- Witness for the amended C9: a word with a +5 ms image offset gets
`absolute_start_ms = start_ms + 5`. -/
theorem C9_amended_overlay_witness :
    (((⟨0, "a b", 0, 0,
        [⟨"a", 0, 0, none, none⟩,
         ⟨"b", 0, 0, some ⟨"img.png", some 5, 1000, "center", 1, none⟩, none⟩]⟩
          : SentenceTS)).words ≠ [])
    ∧ ((0 : ℚ) ≤ 0) ∧ ((0 : ℚ) ≤ 1)
    ∧ (∀ i w w₀, (refineSentenceTS 0 1 ⟨0, "a b", 0, 0,
          [⟨"a", 0, 0, none, none⟩,
           ⟨"b", 0, 0, some ⟨"img.png", some 5, 1000, "center", 1, none⟩,
             none⟩]⟩).words.get? i = some w →
        ([⟨"a", 0, 0, none, none⟩,
          ⟨"b", 0, 0, some ⟨"img.png", some 5, 1000, "center", 1, none⟩, none⟩]
            : List WordData).get? i = some w₀ →
        (∀ im₀, w₀.image = some im₀ → 0 ≤ w.start_ms + im₀.start_ms.getD 0 →
          ∃ im, w.image = some im
            ∧ im.absolute_start_ms = some (w.start_ms + im₀.start_ms.getD 0))
        ∧ (∀ au₀, w₀.audio = some au₀ → 0 ≤ w.start_ms + au₀.start_ms.getD 0 →
          ∃ au, w.audio = some au
            ∧ au.absolute_start_ms = some (w.start_ms + au₀.start_ms.getD 0))) :=
  ⟨by simp, le_refl 0, by norm_num,
    C9_amended_overlay _ 0 1 (by simp) (le_refl 0) (by norm_num)⟩

theorem trimLoop_spec : ∀ (inputs : List Nat) (oks : List Bool) (st : FsState),
    oks.length = inputs.length →
    List.Forall₂ (fun (p : Nat × Bool) (entry : ClipRef) =>
        if p.2 then ∃ tid, entry = ClipRef.trimmed p.1 tid
        else entry = ClipRef.untrimmed p.1)
      (inputs.zip oks) (trimLoop inputs oks st).1
    ∧ (trimLoop inputs oks st).1.length = inputs.length := by
  intro inputs
  induction inputs with
  | nil => intro oks st _; simp [trimLoop]
  | cons f fs ih =>
    intro oks st hlen
    cases oks with
    | nil => simp at hlen
    | cons ok oks' =>
      have hlen' : oks'.length = fs.length := by simpa using hlen
      cases ok with
      | true =>
        have hstep : trimLoop (f :: fs) (true :: oks') st
            = (ClipRef.trimmed f (newFile st).1 :: (trimLoop fs oks' (newFile st).2).1,
              (trimLoop fs oks' (newFile st).2).2) := by
          simp [trimLoop]
        obtain ⟨h1, h2⟩ := ih oks' (newFile st).2 hlen'
        rw [hstep]
        constructor
        · simp only [List.zip_cons_cons]
          exact List.forall₂_cons.mpr ⟨⟨(newFile st).1, rfl⟩, h1⟩
        · simp only [List.length_cons]
          rw [h2]
      | false =>
        have hstep : trimLoop (f :: fs) (false :: oks') st
            = (ClipRef.untrimmed f :: (trimLoop fs oks' st).1, (trimLoop fs oks' st).2) := by
          simp [trimLoop]
        obtain ⟨h1, h2⟩ := ih oks' st hlen'
        rw [hstep]
        constructor
        · simp only [List.zip_cons_cons]
          exact List.forall₂_cons.mpr ⟨by simp, h1⟩
        · simp only [List.length_cons]
          rw [h2]

/-- C7: with a non-empty input list, `_combine_audio_files` always produces
an output: the concat list keeps each input in its position (the trimmed file
when the trim succeeded, the untrimmed original when it failed), concat
success writes the concatenation, and concat failure writes a copy of the
first input. -/
theorem C7_combine_fallbacks (inputs : List Nat) (oracle : CombineOracle) (st : FsState)
    (hne : inputs ≠ []) (hlen : oracle.trimOk.length = inputs.length) :
    ((combineM inputs oracle st).1.isSome = true)
    ∧ List.Forall₂ (fun (p : Nat × Bool) (entry : ClipRef) =>
        if p.2 then ∃ tid, entry = ClipRef.trimmed p.1 tid
        else entry = ClipRef.untrimmed p.1)
        (inputs.zip oracle.trimOk) (trimLoop inputs oracle.trimOk st).1
    ∧ ((trimLoop inputs oracle.trimOk st).1.length = inputs.length)
    ∧ (oracle.concatOk = true →
        (combineM inputs oracle st).1
          = some (WriteDesc.concatOf (trimLoop inputs oracle.trimOk st).1))
    ∧ (oracle.concatOk = false →
        (combineM inputs oracle st).1 = some (WriteDesc.copyOf (inputs.headD 0))) := by
  obtain ⟨h1, h2⟩ := trimLoop_spec inputs oracle.trimOk st hlen
  have hemp : inputs.isEmpty = false := by
    cases inputs with
    | nil => exact absurd rfl hne
    | cons a l => rfl
  refine ⟨?_, h1, h2, ?_, ?_⟩
  · unfold combineM
    by_cases hc : oracle.concatOk
    · simp [hc]
    · simp [hc, hemp]
  · intro hc
    unfold combineM
    simp [hc]
  · intro hc
    unfold combineM
    simp [hc, hemp]

/-- Witness for C7: three clips, middle trim fails, concat fails — output is
a copy of the first clip and the trim list keeps original positions. -/
theorem C7_combine_fallbacks_witness :
    (([10, 11, 12] : List Nat) ≠ [])
    ∧ (([true, false, true] : List Bool).length = ([10, 11, 12] : List Nat).length)
    ∧ (((combineM [10, 11, 12] ⟨[true, false, true], false⟩ ⟨20, {10, 11, 12}⟩).1.isSome = true)
      ∧ List.Forall₂ (fun (p : Nat × Bool) (entry : ClipRef) =>
          if p.2 then ∃ tid, entry = ClipRef.trimmed p.1 tid
          else entry = ClipRef.untrimmed p.1)
          (([10, 11, 12] : List Nat).zip [true, false, true])
          (trimLoop [10, 11, 12] [true, false, true] ⟨20, {10, 11, 12}⟩).1
      ∧ ((trimLoop [10, 11, 12] [true, false, true] ⟨20, {10, 11, 12}⟩).1.length
          = ([10, 11, 12] : List Nat).length)
      ∧ ((false = true) →
          (combineM [10, 11, 12] ⟨[true, false, true], false⟩ ⟨20, {10, 11, 12}⟩).1
            = some (WriteDesc.concatOf
                (trimLoop [10, 11, 12] [true, false, true] ⟨20, {10, 11, 12}⟩).1))
      ∧ ((false = false) →
          (combineM [10, 11, 12] ⟨[true, false, true], false⟩ ⟨20, {10, 11, 12}⟩).1
            = some (WriteDesc.copyOf (([10, 11, 12] : List Nat).headD 0)))) :=
  ⟨by decide, by decide,
    C7_combine_fallbacks [10, 11, 12] ⟨[true, false, true], false⟩ ⟨20, {10, 11, 12}⟩
      (by decide) (by decide)⟩

theorem filterMap_get_range {α : Type _} (l : List α) :
    (List.range l.length).filterMap (fun i => l.get? i) = l := by
  induction l with
  | nil => simp
  | cons a t ih =>
    rw [List.length_cons, List.range_succ_eq_map]
    rw [List.filterMap_cons]
    simp only [List.get?]
    rw [List.filterMap_map]
    have hcomp : ((fun i => (a :: t).get? i) ∘ Nat.succ) = fun i => t.get? i := by
      funext i
      rfl
    rw [hcomp, ih]

theorem reorder_perm (perm : List Nat) (rs : List (Nat × Option Nat × PRes))
    (h : perm.Perm (List.range rs.length)) : (reorder perm rs).Perm rs := by
  unfold reorder
  have h2 := List.Perm.filterMap (fun i => rs.get? i) h
  rw [filterMap_get_range rs] at h2
  exact h2

theorem sortedResults_eq (rs : List (Nat × Option Nat × PRes)) (perm : List Nat) (k : Nat)
    (hkeys : rs.map (fun r => r.1) = List.range' k rs.length)
    (hperm : perm.Perm (List.range rs.length)) :
    List.insertionSort (fun a b => a.1 ≤ b.1) (reorder perm rs) = rs := by
  haveI h_total : IsTotal (Nat × Option Nat × PRes) (fun a b => a.1 ≤ b.1) :=
    ⟨fun a b => Nat.le_total a.1 b.1⟩
  haveI h_trans : IsTrans (Nat × Option Nat × PRes) (fun a b => a.1 ≤ b.1) :=
    ⟨fun _ _ _ h1 h2 => le_trans h1 h2⟩
  haveI h_anti : IsAntisymm (Nat × Option Nat × PRes) (fun a b => a.1 < b.1) :=
    ⟨fun _ _ h1 h2 => absurd h2 (lt_asymm h1)⟩
  have hdeliv : (reorder perm rs).Perm rs := reorder_perm perm rs hperm
  have hsortperm :
      (List.insertionSort (fun a b => a.1 ≤ b.1) (reorder perm rs)).Perm rs :=
    (List.perm_insertionSort _ _).trans hdeliv
  have hrs_lt : List.Pairwise (fun a b : Nat × Option Nat × PRes => a.1 < b.1) rs := by
    have hr := List.pairwise_lt_range' k rs.length
    rw [← hkeys] at hr
    exact List.pairwise_map.mp hr
  have hsort_le : List.Pairwise (fun a b : Nat × Option Nat × PRes => a.1 ≤ b.1)
      (List.insertionSort (fun a b => a.1 ≤ b.1) (reorder perm rs)) :=
    List.sorted_insertionSort _ _
  have hsort_ne : List.Pairwise (fun a b : Nat × Option Nat × PRes => a.1 ≠ b.1)
      (List.insertionSort (fun a b => a.1 ≤ b.1) (reorder perm rs)) := by
    have h1 : (rs.map (fun r => r.1)).Nodup := by
      rw [hkeys]
      exact List.nodup_range' k rs.length
    have h2 := ((hsortperm.map (fun r => r.1)).symm).nodup h1
    exact List.pairwise_map.mp h2
  have hsort_lt : List.Pairwise (fun a b : Nat × Option Nat × PRes => a.1 < b.1)
      (List.insertionSort (fun a b => a.1 ≤ b.1) (reorder perm rs)) :=
    (hsort_le.and hsort_ne).imp (fun h => lt_of_le_of_ne h.1 h.2)
  exact List.eq_of_perm_of_sorted hsortperm hsort_lt hrs_lt

theorem processSentenceM_res (idx : Nat) (s : SentenceSettings) (o : SentOutcome)
    (oc : CombineOracle) (st : FsState) :
    ((processSentenceM idx s o oc st).1).1 = idx
    ∧ ((processSentenceM idx s o oc st).1).2.2 = expectedRes idx s o := by
  unfold processSentenceM expectedRes
  by_cases h : s.words = []
  · simp [h]
  · simp only [if_neg h]
    by_cases hc : (groupChunks s.words).length = 1
    · simp only [if_pos hc]
      cases o <;> simp
    · simp only [if_neg hc]
      cases o <;> simp

theorem processAll_keys : ∀ (ss : List SentenceSettings) (outs : List SentOutcome)
    (ocs : List CombineOracle) (k : Nat) (st : FsState),
    outs.length = ss.length → ocs.length = ss.length →
    (processAll k ss outs ocs st).1.map (fun r => r.1) = List.range' k ss.length := by
  intro ss
  induction ss with
  | nil =>
    intro outs ocs k st _ _
    simp [processAll]
  | cons s ss' ih =>
    intro outs ocs k st h1 h2
    cases outs with
    | nil => simp at h1
    | cons o outs' =>
      cases ocs with
      | nil => simp at h2
      | cons oc ocs' =>
        simp only [processAll, List.map_cons]
        rw [(processSentenceM_res k s o oc st).1]
        rw [ih outs' ocs' (k + 1) _ (by simpa using h1) (by simpa using h2)]
        rw [List.length_cons, List.range'_succ]

theorem processAll_length (ss : List SentenceSettings) (outs : List SentOutcome)
    (ocs : List CombineOracle) (k : Nat) (st : FsState)
    (h1 : outs.length = ss.length) (h2 : ocs.length = ss.length) :
    (processAll k ss outs ocs st).1.length = ss.length := by
  have := processAll_keys ss outs ocs k st h1 h2
  have hlen := congrArg List.length this
  simpa using hlen

theorem processAll_get : ∀ (ss : List SentenceSettings) (outs : List SentOutcome)
    (ocs : List CombineOracle) (k : Nat) (st : FsState) (j : Nat) (r : Nat × Option Nat × PRes),
    (processAll k ss outs ocs st).1.get? j = some r →
    ∃ s_j o_j, ss.get? j = some s_j ∧ outs.get? j = some o_j
      ∧ r.1 = k + j ∧ r.2.2 = expectedRes (k + j) s_j o_j := by
  intro ss
  induction ss with
  | nil =>
    intro outs ocs k st j r hr
    simp [processAll] at hr
  | cons s ss' ih =>
    intro outs ocs k st j r hr
    cases outs with
    | nil => simp [processAll] at hr
    | cons o outs' =>
      cases ocs with
      | nil => simp [processAll] at hr
      | cons oc ocs' =>
        cases j with
        | zero =>
          simp only [processAll, List.get?] at hr
          cases hr
          obtain ⟨ha, hb⟩ := processSentenceM_res k s o oc st
          exact ⟨s, o, rfl, rfl, by simpa using ha, by simpa using hb⟩
        | succ j =>
          simp only [processAll, List.get?] at hr
          obtain ⟨s_j, o_j, ha, hb, hc, hd⟩ := ih outs' ocs' (k + 1) _ j r hr
          refine ⟨s_j, o_j, ha, hb, by omega, ?_⟩
          rw [hd]
          congr 1
          omega

theorem unlinkAll_spec (fs : List Nat) : ∀ st : FsState,
    (unlinkAll fs st).files = st.files \ fs.toFinset
    ∧ (unlinkAll fs st).counter = st.counter := by
  induction fs with
  | nil =>
    intro st
    constructor
    · simp [unlinkAll]
    · rfl
  | cons f fs' ih =>
    intro st
    have hstep : unlinkAll (f :: fs') st = unlinkAll fs' (unlinkFile f st) := rfl
    obtain ⟨h1, h2⟩ := ih (unlinkFile f st)
    rw [hstep, h1, h2]
    constructor
    · show (st.files.erase f) \ fs'.toFinset = st.files \ (f :: fs').toFinset
      ext x
      simp only [Finset.mem_sdiff, Finset.mem_erase, List.toFinset_cons, Finset.mem_insert]
      constructor
      · rintro ⟨⟨hxf, hxs⟩, hxl⟩
        exact ⟨hxs, by tauto⟩
      · rintro ⟨hxs, hor⟩
        push_neg at hor
        exact ⟨⟨hor.1, hxs⟩, hor.2⟩
    · rfl

theorem newFiles_spec : ∀ (k : Nat) (st : FsState),
    (newFiles k st).2.files = st.files ∪ (newFiles k st).1.toFinset
    ∧ (newFiles k st).2.counter = st.counter + k
    ∧ (newFiles k st).1.length = k
    ∧ (∀ t ∈ (newFiles k st).1, st.counter ≤ t ∧ t < st.counter + k) := by
  intro k
  induction k with
  | zero =>
    intro st
    refine ⟨by simp [newFiles], by simp [newFiles], by simp [newFiles], by simp [newFiles]⟩
  | succ k ih =>
    intro st
    obtain ⟨h1, h2, h3, h4⟩ := ih (newFile st).2
    have hstep : newFiles (k + 1) st
        = ((newFile st).1 :: (newFiles k (newFile st).2).1, (newFiles k (newFile st).2).2) := rfl
    rw [hstep]
    refine ⟨?_, ?_, ?_, ?_⟩
    · show (newFiles k (newFile st).2).2.files = st.files ∪ ((newFile st).1 :: _).toFinset
      rw [h1]
      show (insert st.counter st.files) ∪ (newFiles k (newFile st).2).1.toFinset
          = st.files ∪ (st.counter :: (newFiles k (newFile st).2).1).toFinset
      ext x
      simp only [Finset.mem_union, Finset.mem_insert, List.toFinset_cons]
      tauto
    · show (newFiles k (newFile st).2).2.counter = st.counter + (k + 1)
      rw [h2]
      show (st.counter + 1) + k = st.counter + (k + 1)
      omega
    · simp only [List.length_cons, h3]
    · intro t ht
      have hnf1 : (newFile st).1 = st.counter := rfl
      have hnf2 : (newFile st).2.counter = st.counter + 1 := rfl
      rcases List.mem_cons.mp ht with rfl | ht
      · exact ⟨by omega, by omega⟩
      · obtain ⟨ha, hb⟩ := h4 t ht
        rw [hnf2] at ha hb
        exact ⟨by omega, by omega⟩

theorem trimLoop_files : ∀ (inputs : List Nat) (oks : List Bool) (st : FsState),
    ∃ T : Finset Nat,
      (trimLoop inputs oks st).2.files = st.files ∪ T
      ∧ st.counter ≤ (trimLoop inputs oks st).2.counter
      ∧ (∀ t ∈ T, st.counter ≤ t ∧ t < (trimLoop inputs oks st).2.counter)
      ∧ (∀ st₂ : FsState, (moveBack (trimLoop inputs oks st).1 st₂).files = st₂.files \ T
          ∧ (moveBack (trimLoop inputs oks st).1 st₂).counter = st₂.counter) := by
  intro inputs
  induction inputs with
  | nil =>
    intro oks st
    refine ⟨∅, by simp [trimLoop], le_refl _, by simp, ?_⟩
    intro st₂
    exact ⟨by simp [trimLoop, moveBack], rfl⟩
  | cons f fs ih =>
    intro oks st
    cases oks with
    | nil =>
      refine ⟨∅, by simp [trimLoop], le_refl _, by simp, ?_⟩
      intro st₂
      exact ⟨by simp [trimLoop, moveBack], rfl⟩
    | cons ok oks' =>
      cases ok with
      | true =>
        obtain ⟨T', h1, h2, h3, h4⟩ := ih oks' (newFile st).2
        have hstep : trimLoop (f :: fs) (true :: oks') st
            = (ClipRef.trimmed f (newFile st).1 :: (trimLoop fs oks' (newFile st).2).1,
              (trimLoop fs oks' (newFile st).2).2) := by
          simp [trimLoop]
        refine ⟨insert st.counter T', ?_, ?_, ?_, ?_⟩
        · rw [hstep]
          show (trimLoop fs oks' (newFile st).2).2.files = _
          rw [h1]
          show (insert st.counter st.files) ∪ T' = st.files ∪ insert st.counter T'
          ext x
          simp only [Finset.mem_union, Finset.mem_insert]
          tauto
        · rw [hstep]
          dsimp only
          have hnf2 : (newFile st).2.counter = st.counter + 1 := rfl
          omega
        · rw [hstep]
          dsimp only
          intro t ht
          have hnf2 : (newFile st).2.counter = st.counter + 1 := rfl
          rcases Finset.mem_insert.mp ht with rfl | ht
          · exact ⟨le_refl _, by omega⟩
          · obtain ⟨ha, hb⟩ := h3 t ht
            exact ⟨by omega, by omega⟩
        · intro st₂
          rw [hstep]
          have hmb : moveBack (ClipRef.trimmed f (newFile st).1
              :: (trimLoop fs oks' (newFile st).2).1) st₂
              = moveBack (trimLoop fs oks' (newFile st).2).1
                  (unlinkFile (newFile st).1 st₂) := rfl
          rw [hmb]
          obtain ⟨ha, hb⟩ := h4 (unlinkFile (newFile st).1 st₂)
          rw [ha, hb]
          constructor
          · show (st₂.files.erase st.counter) \ T' = st₂.files \ insert st.counter T'
            ext x
            simp only [Finset.mem_sdiff, Finset.mem_erase, Finset.mem_insert]
            constructor
            · rintro ⟨⟨hxf, hxs⟩, hxl⟩
              exact ⟨hxs, by tauto⟩
            · rintro ⟨hxs, hor⟩
              push_neg at hor
              exact ⟨⟨hor.1, hxs⟩, hor.2⟩
          · rfl
      | false =>
        obtain ⟨T', h1, h2, h3, h4⟩ := ih oks' st
        have hstep : trimLoop (f :: fs) (false :: oks') st
            = (ClipRef.untrimmed f :: (trimLoop fs oks' st).1, (trimLoop fs oks' st).2) := by
          simp [trimLoop]
        refine ⟨T', by rw [hstep]; exact h1, by rw [hstep]; exact h2,
          by rw [hstep]; exact h3, ?_⟩
        intro st₂
        rw [hstep]
        have hmb : moveBack (ClipRef.untrimmed f :: (trimLoop fs oks' st).1) st₂
            = moveBack (trimLoop fs oks' st).1 st₂ := rfl
        rw [hmb]
        exact h4 st₂

theorem combineM_concat_spec (inputs : List Nat) (oracle : CombineOracle) (st : FsState)
    (hc : oracle.concatOk = true) (hst : FsOk st) :
    (combineM inputs oracle st).2.files = st.files
    ∧ st.counter ≤ (combineM inputs oracle st).2.counter
    ∧ FsOk (combineM inputs oracle st).2 := by
  obtain ⟨T, h1, h2, h3, h4⟩ := trimLoop_files inputs oracle.trimOk st
  have hcm : (combineM inputs oracle st).2
      = moveBack (trimLoop inputs oracle.trimOk st).1
          (unlinkFile (newFile (trimLoop inputs oracle.trimOk st).2).1
            (newFile (trimLoop inputs oracle.trimOk st).2).2) := by
    unfold combineM
    rw [hc]
    rfl
  have hlfid : (newFile (trimLoop inputs oracle.trimOk st).2).1
      = (trimLoop inputs oracle.trimOk st).2.counter := rfl
  have hlf_files : (newFile (trimLoop inputs oracle.trimOk st).2).2.files
      = insert (trimLoop inputs oracle.trimOk st).2.counter
          (trimLoop inputs oracle.trimOk st).2.files := rfl
  have hlf_counter : (newFile (trimLoop inputs oracle.trimOk st).2).2.counter
      = (trimLoop inputs oracle.trimOk st).2.counter + 1 := rfl
  have herase : (unlinkFile (newFile (trimLoop inputs oracle.trimOk st).2).1
      (newFile (trimLoop inputs oracle.trimOk st).2).2).files
      = (trimLoop inputs oracle.trimOk st).2.files := by
    show ((newFile (trimLoop inputs oracle.trimOk st).2).2.files).erase _ = _
    rw [hlf_files, hlfid]
    apply Finset.erase_insert
    intro hmem
    rw [h1] at hmem
    rcases Finset.mem_union.mp hmem with hmem | hmem
    · exact absurd (lt_of_lt_of_le (hst _ hmem) h2) (lt_irrefl _)
    · exact absurd (h3 _ hmem).2 (lt_irrefl _)
  obtain ⟨hmb_files, hmb_counter⟩ := h4 (unlinkFile (newFile (trimLoop inputs oracle.trimOk st).2).1
      (newFile (trimLoop inputs oracle.trimOk st).2).2)
  refine ⟨?_, ?_, ?_⟩
  · rw [hcm, hmb_files, herase, h1]
    ext x
    simp only [Finset.mem_sdiff, Finset.mem_union]
    constructor
    · rintro ⟨hx | hx, hnx⟩
      · exact hx
      · exact absurd hx hnx
    · intro hx
      refine ⟨Or.inl hx, ?_⟩
      intro hxT
      exact absurd (lt_of_lt_of_le (hst _ hx) (h3 _ hxT).1) (lt_irrefl _)
  · rw [hcm, hmb_counter]
    show st.counter ≤ (unlinkFile _ _).counter
    have : (unlinkFile (newFile (trimLoop inputs oracle.trimOk st).2).1
        (newFile (trimLoop inputs oracle.trimOk st).2).2).counter
        = (trimLoop inputs oracle.trimOk st).2.counter + 1 := hlf_counter
    omega
  · intro f hf
    rw [hcm, hmb_files, herase, h1] at hf
    rcases Finset.mem_sdiff.mp hf with ⟨hmem, _⟩
    rcases Finset.mem_union.mp hmem with hmem | hmem
    · have := hst _ hmem
      rw [hcm, hmb_counter]
      have h5 : (unlinkFile (newFile (trimLoop inputs oracle.trimOk st).2).1
          (newFile (trimLoop inputs oracle.trimOk st).2).2).counter
          = (trimLoop inputs oracle.trimOk st).2.counter + 1 := hlf_counter
      omega
    · have := (h3 _ hmem).2
      rw [hcm, hmb_counter]
      have h5 : (unlinkFile (newFile (trimLoop inputs oracle.trimOk st).2).1
          (newFile (trimLoop inputs oracle.trimOk st).2).2).counter
          = (trimLoop inputs oracle.trimOk st).2.counter + 1 := hlf_counter
      omega

theorem processSentenceM_ok_spec (idx : Nat) (s : SentenceSettings) (oracle : CombineOracle)
    (st : FsState) (horc : oracle.concatOk = true) (hst : FsOk st) :
    (s.words = [] →
      processSentenceM idx s SentOutcome.ok oracle st = ((idx, none, PRes.noWords), st))
    ∧ (s.words ≠ [] → ∃ t,
        (processSentenceM idx s SentOutcome.ok oracle st).1
          = (idx, some t, PRes.ts (initialSentenceTS idx s))
        ∧ (processSentenceM idx s SentOutcome.ok oracle st).2.files = insert t st.files
        ∧ t ∉ st.files
        ∧ st.counter ≤ t
        ∧ t < (processSentenceM idx s SentOutcome.ok oracle st).2.counter
        ∧ st.counter ≤ (processSentenceM idx s SentOutcome.ok oracle st).2.counter
        ∧ FsOk (processSentenceM idx s SentOutcome.ok oracle st).2) := by
  constructor
  · intro h
    unfold processSentenceM
    rw [if_pos h]
  · intro h
    have hnf1 : (newFile st).1 = st.counter := rfl
    have hnf2f : (newFile st).2.files = insert st.counter st.files := rfl
    have hnf2c : (newFile st).2.counter = st.counter + 1 := rfl
    have hst1 : FsOk (newFile st).2 := by
      intro f hf
      rw [hnf2f] at hf
      rw [hnf2c]
      rcases Finset.mem_insert.mp hf with rfl | hf
      · omega
      · exact lt_trans (hst _ hf) (by omega)
    by_cases hc : (groupChunks s.words).length = 1
    · have hps : processSentenceM idx s SentOutcome.ok oracle st
          = ((idx, some (newFile st).1, PRes.ts (initialSentenceTS idx s)), (newFile st).2) := by
        unfold processSentenceM
        rw [if_neg h, if_pos hc]
      refine ⟨st.counter, ?_, ?_, ?_, le_refl _, ?_, ?_, ?_⟩
      · rw [hps, hnf1]
      · rw [hps]
        exact hnf2f
      · intro hmem
        exact absurd (hst _ hmem) (lt_irrefl _)
      · rw [hps, hnf2c]
        omega
      · rw [hps, hnf2c]
        omega
      · rw [hps]
        exact hst1
    · set keep := (groupChunks s.words).filter (fun c => containsAlnum (joinWords c.words))
        with hkeep
      have hps : processSentenceM idx s SentOutcome.ok oracle st
          = ((idx, some (newFile st).1, PRes.ts (initialSentenceTS idx s)),
            unlinkAll (newFiles keep.length (newFile st).2).1
              (combineM (newFiles keep.length (newFile st).2).1 oracle
                (newFiles keep.length (newFile st).2).2).2) := by
        unfold processSentenceM
        rw [if_neg h, if_neg hc]
      obtain ⟨hn1, hn2, hn3, hn4⟩ := newFiles_spec keep.length (newFile st).2
      have hstn : FsOk (newFiles keep.length (newFile st).2).2 := by
        intro f hf
        rw [hn1] at hf
        rw [hn2]
        rcases Finset.mem_union.mp hf with hf | hf
        · exact lt_of_lt_of_le (hst1 _ hf) (by omega)
        · exact (hn4 f (List.mem_toFinset.mp hf)).2
      obtain ⟨hcm1, hcm2, hcm3⟩ := combineM_concat_spec
        (newFiles keep.length (newFile st).2).1 oracle
        (newFiles keep.length (newFile st).2).2 horc hstn
      obtain ⟨hu1, hu2⟩ := unlinkAll_spec (newFiles keep.length (newFile st).2).1
        (combineM (newFiles keep.length (newFile st).2).1 oracle
          (newFiles keep.length (newFile st).2).2).2
      refine ⟨st.counter, ?_, ?_, ?_, le_refl _, ?_, ?_, ?_⟩
      · rw [hps, hnf1]
      · rw [hps]
        show (unlinkAll _ _).files = _
        rw [hu1, hcm1, hn1, hnf2f]
        ext x
        simp only [Finset.mem_sdiff, Finset.mem_union, Finset.mem_insert]
        constructor
        · rintro ⟨hx | hx, hnx⟩
          · exact hx
          · exact absurd hx hnx
        · intro hx
          refine ⟨Or.inl hx, ?_⟩
          intro hxT
          obtain ⟨ha, _⟩ := hn4 x (List.mem_toFinset.mp hxT)
          rw [hnf2c] at ha
          rcases hx with rfl | hx
          · omega
          · have := hst _ hx
            omega
      · intro hmem
        exact absurd (hst _ hmem) (lt_irrefl _)
      · rw [hps]
        show st.counter < (unlinkAll _ _).counter
        rw [hu2]
        have h6 := hcm2
        rw [hn2] at h6
        rw [hnf2c] at h6
        omega
      · rw [hps]
        show st.counter ≤ (unlinkAll _ _).counter
        rw [hu2]
        have h6 := hcm2
        rw [hn2] at h6
        rw [hnf2c] at h6
        omega
      · rw [hps]
        intro f hf
        show f < (unlinkAll _ _).counter
        rw [hu2]
        rw [hu1] at hf
        exact hcm3 _ (Finset.mem_sdiff.mp hf).1

theorem collectTemps_cons (r : Nat × Option Nat × PRes) (rest : List (Nat × Option Nat × PRes)) :
    collectTemps (r :: rest)
      = match r.2.1 with
        | some t => t :: collectTemps rest
        | none => collectTemps rest := by
  unfold collectTemps
  rw [List.filterMap_cons]
  rcases r with ⟨i, tf, res⟩
  cases tf <;> rfl

theorem processAll_ok_spec : ∀ (ss : List SentenceSettings) (outs : List SentOutcome)
    (ocs : List CombineOracle) (k : Nat) (st : FsState),
    (∀ o ∈ outs, o = SentOutcome.ok) → (∀ oc ∈ ocs, oc.concatOk = true) →
    outs.length = ss.length → ocs.length = ss.length → FsOk st →
    (processAll k ss outs ocs st).2.files
      = st.files ∪ (collectTemps (processAll k ss outs ocs st).1).toFinset
    ∧ st.counter ≤ (processAll k ss outs ocs st).2.counter
    ∧ FsOk (processAll k ss outs ocs st).2
    ∧ (∀ t ∈ collectTemps (processAll k ss outs ocs st).1, t ∉ st.files ∧ st.counter ≤ t)
    ∧ (collectTemps (processAll k ss outs ocs st).1).Nodup
    ∧ (∀ r ∈ (processAll k ss outs ocs st).1, ∀ e, r.2.2 ≠ PRes.exc e) := by
  intro ss
  induction ss with
  | nil =>
    intro outs ocs k st _ _ _ _ hst
    refine ⟨by simp [processAll, collectTemps], le_refl _, hst,
      by simp [processAll, collectTemps], by simp [processAll, collectTemps],
      by simp [processAll]⟩
  | cons s ss' ih =>
    intro outs ocs k st houts horcs hl1 hl2 hst
    cases outs with
    | nil => simp at hl1
    | cons o outs' =>
      cases ocs with
      | nil => simp at hl2
      | cons oc ocs' =>
        have ho : o = SentOutcome.ok := houts o (List.mem_cons_self o outs')
        subst ho
        have horc : oc.concatOk = true := horcs oc (List.mem_cons_self oc ocs')
        have houts' : ∀ o ∈ outs', o = SentOutcome.ok :=
          fun o hm => houts o (List.mem_cons_of_mem _ hm)
        have horcs' : ∀ x ∈ ocs', x.concatOk = true :=
          fun x hm => horcs x (List.mem_cons_of_mem _ hm)
        have hl1' : outs'.length = ss'.length := by simpa using hl1
        have hl2' : ocs'.length = ss'.length := by simpa using hl2
        have hstep : processAll k (s :: ss') (SentOutcome.ok :: outs') (oc :: ocs') st
            = ((processSentenceM k s SentOutcome.ok oc st).1 ::
                (processAll (k + 1) ss' outs' ocs'
                  (processSentenceM k s SentOutcome.ok oc st).2).1,
              (processAll (k + 1) ss' outs' ocs'
                (processSentenceM k s SentOutcome.ok oc st).2).2) := rfl
        obtain ⟨hempty, hfull⟩ := processSentenceM_ok_spec k s oc st horc hst
        by_cases hw : s.words = []
        · have hfirst := hempty hw
          have hsnd : (processSentenceM k s SentOutcome.ok oc st).2 = st := by rw [hfirst]
          have hres : (processSentenceM k s SentOutcome.ok oc st).1
              = (k, none, PRes.noWords) := by
            rw [hfirst]
          obtain ⟨ih1, ih2, ih3, ih4, ih5, ih6⟩ :=
            ih outs' ocs' (k + 1) st houts' horcs' hl1' hl2' hst
          rw [hstep, hsnd, hres]
          have hct : collectTemps ((k, none, PRes.noWords) ::
              (processAll (k + 1) ss' outs' ocs' st).1)
              = collectTemps (processAll (k + 1) ss' outs' ocs' st).1 := by
            rw [collectTemps_cons]
          refine ⟨?_, ?_, ih3, ?_, ?_, ?_⟩
          · rw [hct]
            exact ih1
          · exact ih2
          · intro t ht
            rw [hct] at ht
            exact ih4 t ht
          · rw [hct]
            exact ih5
          · intro r hr e
            rcases List.mem_cons.mp hr with rfl | hr
            · intro hcon
              cases hcon
            · exact ih6 r hr e
        · obtain ⟨t, hr1, hr2, hr3, hr4, hr5, hr6, hr7⟩ := hfull hw
          obtain ⟨ih1, ih2, ih3, ih4, ih5, ih6⟩ :=
            ih outs' ocs' (k + 1) (processSentenceM k s SentOutcome.ok oc st).2
              houts' horcs' hl1' hl2' hr7
          rw [hstep]
          have hct : collectTemps ((processSentenceM k s SentOutcome.ok oc st).1 ::
              (processAll (k + 1) ss' outs' ocs'
                (processSentenceM k s SentOutcome.ok oc st).2).1)
              = t :: collectTemps (processAll (k + 1) ss' outs' ocs'
                  (processSentenceM k s SentOutcome.ok oc st).2).1 := by
            rw [collectTemps_cons, hr1]
          refine ⟨?_, ?_, ih3, ?_, ?_, ?_⟩
          · show (processAll (k + 1) ss' outs' ocs'
                (processSentenceM k s SentOutcome.ok oc st).2).2.files = _
            rw [hct, ih1, hr2]
            ext x
            simp only [Finset.mem_union, Finset.mem_insert, List.toFinset_cons]
            tauto
          · show st.counter ≤ (processAll (k + 1) ss' outs' ocs'
                (processSentenceM k s SentOutcome.ok oc st).2).2.counter
            omega
          · intro x hx
            rw [hct] at hx
            rcases List.mem_cons.mp hx with rfl | hx
            · exact ⟨hr3, hr4⟩
            · obtain ⟨ha, hb⟩ := ih4 x hx
              rw [hr2] at ha
              constructor
              · intro hmem
                exact ha (Finset.mem_insert_of_mem hmem)
              · omega
          · rw [hct]
            refine List.nodup_cons.mpr ⟨?_, ih5⟩
            intro hmem
            obtain ⟨_, hb⟩ := ih4 t hmem
            omega
          · intro r hr e
            rcases List.mem_cons.mp hr with rfl | hr
            · rw [hr1]
              intro hcon
              cases hcon
            · exact ih6 r hr e

theorem tsListOf_cons (r : Nat × Option Nat × PRes) (rest : List (Nat × Option Nat × PRes)) :
    tsListOf (r :: rest)
      = match r.2.2, r.2.1 with
        | PRes.ts t, some _ => t :: tsListOf rest
        | PRes.ts _, none => tsListOf rest
        | PRes.noWords, _ => tsListOf rest
        | PRes.exc _, _ => tsListOf rest := by
  unfold tsListOf
  rw [List.filterMap_cons]
  rcases r with ⟨i, tf, res⟩
  cases res <;> cases tf <;> rfl

theorem collectResults_no_exc : ∀ (rs : List (Nat × Option Nat × PRes))
    (temps : List Nat) (tss : List SentenceTS),
    (∀ r ∈ rs, ∀ e, r.2.2 ≠ PRes.exc e) →
    collectResults rs temps tss
      = Except.ok (temps ++ collectTemps rs, tss ++ tsListOf rs) := by
  intro rs
  induction rs with
  | nil =>
    intro temps tss _
    simp [collectResults, collectTemps, tsListOf]
  | cons r rest ih =>
    intro temps tss hne
    have hr := hne r (List.mem_cons_self r rest)
    have hne' : ∀ x ∈ rest, ∀ e, x.2.2 ≠ PRes.exc e :=
      fun x hm => hne x (List.mem_cons_of_mem r hm)
    rcases r with ⟨i, tf, res⟩
    cases res with
    | exc e => exact absurd rfl (hr e)
    | noWords =>
      cases tf with
      | some t =>
        show collectResults rest (temps ++ [t]) tss = _
        rw [ih (temps ++ [t]) tss hne', collectTemps_cons, tsListOf_cons]
        simp
      | none =>
        show collectResults rest temps tss = _
        rw [ih temps tss hne', collectTemps_cons, tsListOf_cons]
    | ts t =>
      cases tf with
      | some tp =>
        show collectResults rest (temps ++ [tp]) (tss ++ [t]) = _
        rw [ih (temps ++ [tp]) (tss ++ [t]) hne', collectTemps_cons, tsListOf_cons]
        simp
      | none =>
        show collectResults rest temps tss = _
        rw [ih temps tss hne', collectTemps_cons, tsListOf_cons]

theorem collectResults_first_exc : ∀ (rs : List (Nat × Option Nat × PRes)) (k : Nat)
    (e : String) (r : Nat × Option Nat × PRes) (temps : List Nat) (tss : List SentenceTS),
    rs.get? k = some r → r.2.2 = PRes.exc e →
    (∀ j, j < k → ∀ r', rs.get? j = some r' → ∀ e', r'.2.2 ≠ PRes.exc e') →
    ∃ temps', collectResults rs temps tss = Except.error (e, temps') := by
  intro rs
  induction rs with
  | nil =>
    intro k e r temps tss hget _ _
    simp at hget
  | cons r0 rest ih =>
    intro k e r temps tss hget hexc hbefore
    cases k with
    | zero =>
      simp only [List.get?, Option.some.injEq] at hget
      subst hget
      rcases r0 with ⟨i, tf, res⟩
      simp only at hexc
      subst hexc
      exact ⟨temps, rfl⟩
    | succ k =>
      simp only [List.get?] at hget
      have hr0 : ∀ e', r0.2.2 ≠ PRes.exc e' := by
        intro e'
        exact hbefore 0 (by omega) r0 rfl e'
      have hbefore' : ∀ j, j < k → ∀ r', rest.get? j = some r' → ∀ e', r'.2.2 ≠ PRes.exc e' := by
        intro j hj r' hr' e'
        exact hbefore (j + 1) (by omega) r' hr' e'
      rcases r0 with ⟨i, tf, res⟩
      cases res with
      | exc e' => exact absurd rfl (hr0 e')
      | noWords =>
        cases tf with
        | some t => exact ih k e r (temps ++ [t]) tss hget hexc hbefore'
        | none => exact ih k e r temps tss hget hexc hbefore'
      | ts t =>
        cases tf with
        | some tp => exact ih k e r (temps ++ [tp]) (tss ++ [t]) hget hexc hbefore'
        | none => exact ih k e r temps tss hget hexc hbefore'

/-- C4 amended: when every sentence synthesizes successfully and every
concat step succeeds, `generate_audio` removes every run-scoped temporary
file it created (trim failures included: untrimmed originals are reused and
trimmed intermediates are moved back). -/
theorem C4_amended_cleanup (sentences : List SentenceSettings) (outs : List SentOutcome)
    (oracles : List CombineOracle) (finalOracle : CombineOracle)
    (durations : List (Option ℚ)) (perm : List Nat) (st : FsState)
    (houts : ∀ o ∈ outs, o = SentOutcome.ok)
    (horcs : ∀ oc ∈ oracles, oc.concatOk = true)
    (hfin : finalOracle.concatOk = true)
    (hl1 : outs.length = sentences.length) (hl2 : oracles.length = sentences.length)
    (hperm : perm.Perm (List.range sentences.length))
    (hst : FsOk st) :
    (generateAudioM sentences outs oracles finalOracle durations perm st).2.files
      = st.files := by
  have hkeys := processAll_keys sentences outs oracles 0 st hl1 hl2
  have hlen := processAll_length sentences outs oracles 0 st hl1 hl2
  obtain ⟨pa1, pa2, pa3, pa4, pa5, pa6⟩ :=
    processAll_ok_spec sentences outs oracles 0 st houts horcs hl1 hl2 hst
  have hperm' : perm.Perm (List.range (processAll 0 sentences outs oracles st).1.length) := by
    rw [hlen]
    exact hperm
  have hkeys' : (processAll 0 sentences outs oracles st).1.map (fun r => r.1)
      = List.range' 0 (processAll 0 sentences outs oracles st).1.length := by
    rw [hlen]
    exact hkeys
  have hsorted := sortedResults_eq (processAll 0 sentences outs oracles st).1 perm 0
    hkeys' hperm'
  have hcollect := collectResults_no_exc (processAll 0 sentences outs oracles st).1 [] [] pa6
  have hgen : generateAudioM sentences outs oracles finalOracle durations perm st
      = (⟨(combineM (collectTemps (processAll 0 sentences outs oracles st).1) finalOracle
            (processAll 0 sentences outs oracles st).2).1,
          some (estimateTimestamps durations
            (tsListOf (processAll 0 sentences outs oracles st).1)), none⟩,
        unlinkAll (collectTemps (processAll 0 sentences outs oracles st).1)
          (combineM (collectTemps (processAll 0 sentences outs oracles st).1) finalOracle
            (processAll 0 sentences outs oracles st).2).2) := by
    simp only [generateAudioM]
    rw [hsorted, hcollect]
    simp
  rw [hgen]
  obtain ⟨hu1, _⟩ := unlinkAll_spec (collectTemps (processAll 0 sentences outs oracles st).1)
    (combineM (collectTemps (processAll 0 sentences outs oracles st).1) finalOracle
      (processAll 0 sentences outs oracles st).2).2
  obtain ⟨hcm1, _, _⟩ := combineM_concat_spec
    (collectTemps (processAll 0 sentences outs oracles st).1) finalOracle
    (processAll 0 sentences outs oracles st).2 hfin pa3
  show (unlinkAll _ _).files = st.files
  rw [hu1, hcm1, pa1]
  ext x
  simp only [Finset.mem_sdiff, Finset.mem_union, List.mem_toFinset]
  constructor
  · rintro ⟨hx | hx, hnx⟩
    · exact hx
    · exact absurd hx hnx
  · intro hx
    refine ⟨Or.inl hx, ?_⟩
    intro hxT
    exact (pa4 x hxT).1 hx

/-- C4 counterexample: when sentence 1's synthesis fails, `generate_audio`
raises, yet sentence 1's per-sentence temporary file (id 1) is still on
disk after the run — the claim's cleanup guarantee fails on the error path. -/
theorem C4_counterexample :
    ((generateAudioM [exSentHi, exSentYo] [SentOutcome.ok, SentOutcome.synthFail "boom"]
        [⟨[], true⟩, ⟨[], true⟩] ⟨[], true⟩ [] [0, 1] ⟨0, ∅⟩).1.errorMsg = some "boom")
    ∧ (generateAudioM [exSentHi, exSentYo] [SentOutcome.ok, SentOutcome.synthFail "boom"]
        [⟨[], true⟩, ⟨[], true⟩] ⟨[], true⟩ [] [0, 1] ⟨0, ∅⟩).2.files ≠ ∅ := by
  constructor
  · decide
  · decide

/-- Witness for the amended C4: an all-success two-sentence run starting
with one unrelated file on disk ends with exactly that file. -/
theorem C4_amended_cleanup_witness :
    (∀ o ∈ ([SentOutcome.ok, SentOutcome.ok] : List SentOutcome), o = SentOutcome.ok)
    ∧ (∀ oc ∈ ([⟨[], true⟩, ⟨[], true⟩] : List CombineOracle), oc.concatOk = true)
    ∧ ((⟨[], true⟩ : CombineOracle).concatOk = true)
    ∧ (([SentOutcome.ok, SentOutcome.ok] : List SentOutcome).length
        = ([exSentHi, exSentYo] : List SentenceSettings).length)
    ∧ (([⟨[], true⟩, ⟨[], true⟩] : List CombineOracle).length
        = ([exSentHi, exSentYo] : List SentenceSettings).length)
    ∧ (([1, 0] : List Nat).Perm (List.range ([exSentHi, exSentYo]
        : List SentenceSettings).length))
    ∧ FsOk ⟨5, {3}⟩
    ∧ (generateAudioM [exSentHi, exSentYo] [SentOutcome.ok, SentOutcome.ok]
        [⟨[], true⟩, ⟨[], true⟩] ⟨[], true⟩ [] [1, 0] ⟨5, {3}⟩).2.files = {3} :=
  ⟨by decide, by decide, rfl, rfl, rfl, by decide,
    by intro f hf; simp at hf; subst hf; show (3 : Nat) < 5; omega,
    C4_amended_cleanup [exSentHi, exSentYo] [SentOutcome.ok, SentOutcome.ok]
      [⟨[], true⟩, ⟨[], true⟩] ⟨[], true⟩ [] [1, 0] ⟨5, {3}⟩
      (by decide) (by decide) rfl rfl rfl (by decide)
      (by intro f hf; simp at hf; subst hf; show (3 : Nat) < 5; omega)⟩

/-- C5 amended: when a sentence with a non-empty word list is the
lowest-index synthesis failure, `generate_audio` raises the underlying
engine error itself (not tagged with the sentence index) and produces
neither a combined audio file nor a timing document. -/
theorem C5_synth_failure (sentences : List SentenceSettings) (outs : List SentOutcome)
    (oracles : List CombineOracle) (finalOracle : CombineOracle)
    (durations : List (Option ℚ)) (perm : List Nat) (st : FsState)
    (hl1 : outs.length = sentences.length) (hl2 : oracles.length = sentences.length)
    (hperm : perm.Perm (List.range sentences.length))
    (k : Nat) (e : String) (sk : SentenceSettings)
    (hsk : sentences.get? k = some sk) (hw : sk.words ≠ [])
    (hout : outs.get? k = some (SentOutcome.synthFail e))
    (hmin : ∀ j, j < k → ∀ s_j o_j, sentences.get? j = some s_j →
        outs.get? j = some o_j → o_j = SentOutcome.ok ∨ s_j.words = []) :
    (generateAudioM sentences outs oracles finalOracle durations perm st).1.output = none
    ∧ (generateAudioM sentences outs oracles finalOracle durations perm st).1.project = none
    ∧ (generateAudioM sentences outs oracles finalOracle durations perm st).1.errorMsg
        = some e := by
  have hkeys := processAll_keys sentences outs oracles 0 st hl1 hl2
  have hlen := processAll_length sentences outs oracles 0 st hl1 hl2
  have hperm' : perm.Perm (List.range (processAll 0 sentences outs oracles st).1.length) := by
    rw [hlen]
    exact hperm
  have hkeys' : (processAll 0 sentences outs oracles st).1.map (fun r => r.1)
      = List.range' 0 (processAll 0 sentences outs oracles st).1.length := by
    rw [hlen]
    exact hkeys
  have hsorted := sortedResults_eq (processAll 0 sentences outs oracles st).1 perm 0
    hkeys' hperm'
  have hklen : k < sentences.length := by
    obtain ⟨h, _⟩ := List.get?_eq_some.mp hsk
    exact h
  have hklen' : k < (processAll 0 sentences outs oracles st).1.length := by omega
  have hr : (processAll 0 sentences outs oracles st).1.get? k
      = some ((processAll 0 sentences outs oracles st).1.get ⟨k, hklen'⟩) :=
    List.get?_eq_get hklen'
  obtain ⟨s_k, o_k, ha, hb, _, hd⟩ :=
    processAll_get sentences outs oracles 0 st k _ hr
  have hs_k : s_k = sk := by
    rw [hsk] at ha
    injection ha with h
    exact h.symm
  have ho_k : o_k = SentOutcome.synthFail e := by
    rw [hout] at hb
    injection hb with h
    exact h.symm
  subst hs_k
  subst ho_k
  have hexc : ((processAll 0 sentences outs oracles st).1.get ⟨k, hklen'⟩).2.2
      = PRes.exc e := by
    rw [hd]
    unfold expectedRes
    rw [if_neg hw]
  have hbefore : ∀ j, j < k → ∀ r',
      (processAll 0 sentences outs oracles st).1.get? j = some r' →
      ∀ e', r'.2.2 ≠ PRes.exc e' := by
    intro j hj r' hr' e'
    obtain ⟨s_j, o_j, ha', hb', _, hd'⟩ :=
      processAll_get sentences outs oracles 0 st j r' hr'
    rcases hmin j hj s_j o_j ha' hb' with hok | hempty
    · subst hok
      rw [hd']
      unfold expectedRes
      by_cases hwj : s_j.words = []
      · rw [if_pos hwj]
        intro hcon
        cases hcon
      · rw [if_neg hwj]
        intro hcon
        cases hcon
    · rw [hd']
      unfold expectedRes
      rw [if_pos hempty]
      intro hcon
      cases hcon
  obtain ⟨temps', hcollect⟩ := collectResults_first_exc
    (processAll 0 sentences outs oracles st).1 k e _ [] [] hr hexc hbefore
  have hgen : generateAudioM sentences outs oracles finalOracle durations perm st
      = (⟨none, none, some e⟩,
        unlinkAll temps' (processAll 0 sentences outs oracles st).2) := by
    simp only [generateAudioM]
    rw [hsorted, hcollect]
  rw [hgen]
  exact ⟨rfl, rfl, rfl⟩

/-- C5 counterexample for the index-tagging part of the claim: two runs
failing at different sentence indices (0 and 1) raise identical errors —
the raised error is the bare engine exception and carries no sentence
index. -/
theorem C5_counterexample :
    (generateAudioM [exSentHi, exSentYo] [SentOutcome.synthFail "boom", SentOutcome.ok]
        [⟨[], true⟩, ⟨[], true⟩] ⟨[], true⟩ [] [0, 1] ⟨0, ∅⟩).1.errorMsg = some "boom"
    ∧ (generateAudioM [exSentHi, exSentYo] [SentOutcome.ok, SentOutcome.synthFail "boom"]
        [⟨[], true⟩, ⟨[], true⟩] ⟨[], true⟩ [] [0, 1] ⟨0, ∅⟩).1.errorMsg = some "boom" := by
  constructor
  · decide
  · decide

/-- Witness for the amended C5 at a run whose sentence 1 fails. -/
theorem C5_synth_failure_witness :
    (([SentOutcome.ok, SentOutcome.synthFail "boom"] : List SentOutcome).length
        = ([exSentHi, exSentYo] : List SentenceSettings).length)
    ∧ (([⟨[], true⟩, ⟨[], true⟩] : List CombineOracle).length
        = ([exSentHi, exSentYo] : List SentenceSettings).length)
    ∧ (([0, 1] : List Nat).Perm (List.range ([exSentHi, exSentYo]
        : List SentenceSettings).length))
    ∧ (([exSentHi, exSentYo] : List SentenceSettings).get? 1 = some exSentYo)
    ∧ (exSentYo.words ≠ [])
    ∧ (([SentOutcome.ok, SentOutcome.synthFail "boom"] : List SentOutcome).get? 1
        = some (SentOutcome.synthFail "boom"))
    ∧ ((generateAudioM [exSentHi, exSentYo] [SentOutcome.ok, SentOutcome.synthFail "boom"]
        [⟨[], true⟩, ⟨[], true⟩] ⟨[], true⟩ [] [0, 1] ⟨0, ∅⟩).1.output = none
      ∧ (generateAudioM [exSentHi, exSentYo] [SentOutcome.ok, SentOutcome.synthFail "boom"]
        [⟨[], true⟩, ⟨[], true⟩] ⟨[], true⟩ [] [0, 1] ⟨0, ∅⟩).1.project = none
      ∧ (generateAudioM [exSentHi, exSentYo] [SentOutcome.ok, SentOutcome.synthFail "boom"]
        [⟨[], true⟩, ⟨[], true⟩] ⟨[], true⟩ [] [0, 1] ⟨0, ∅⟩).1.errorMsg = some "boom") :=
  ⟨rfl, rfl, by decide, by decide, by decide, rfl,
    C5_synth_failure [exSentHi, exSentYo] [SentOutcome.ok, SentOutcome.synthFail "boom"]
      [⟨[], true⟩, ⟨[], true⟩] ⟨[], true⟩ [] [0, 1] ⟨0, ∅⟩ rfl rfl (by decide)
      1 "boom" exSentYo (by decide) (by decide) rfl
      (by
        intro j hj s_j o_j hs ho
        interval_cases j
        simp only [List.get?, Option.some.injEq] at ho
        exact Or.inl ho.symm)⟩

theorem estimateGo_get : ∀ (ds : List (Option ℚ)) (initial : List SentenceTS) (ct : ℚ)
    (i : Nat) (d₀ : Option ℚ) (ts₀ : SentenceTS),
    ds.get? i = some d₀ → initial.get? i = some ts₀ →
    (estimateGo ct ds initial).get? i
      = some (match d₀ with
          | some D => refineSentenceTS (ct + sumPrev ds i) D ts₀
          | none => ts₀) := by
  intro ds
  induction ds with
  | nil =>
    intro initial ct i d₀ ts₀ h1 _
    simp at h1
  | cons d ds' ih =>
    intro initial ct i d₀ ts₀ h1 h2
    cases initial with
    | nil => simp at h2
    | cons ts rest =>
      cases i with
      | zero =>
        simp only [List.get?] at h1 h2
        cases h1
        cases h2
        cases d with
        | some D =>
          have hstep : estimateGo ct (some D :: ds') (ts₀ :: rest)
              = refineSentenceTS ct D ts₀ :: estimateGo (ct + D) ds' rest := rfl
          rw [hstep]
          simp only [List.get?, Option.some.injEq]
          have hz : sumPrev (some D :: ds') 0 = 0 := by
            simp [sumPrev]
          rw [hz, add_zero]
        | none =>
          have hstep : estimateGo ct (none :: ds') (ts₀ :: rest)
              = ts₀ :: estimateGo ct ds' rest := rfl
          rw [hstep]
          rfl
      | succ i =>
        simp only [List.get?] at h1 h2
        cases d with
        | some D =>
          have hstep : estimateGo ct (some D :: ds') (ts :: rest)
              = refineSentenceTS ct D ts :: estimateGo (ct + D) ds' rest := rfl
          rw [hstep]
          show (estimateGo (ct + D) ds' rest).get? i = _
          rw [ih rest (ct + D) i d₀ ts₀ h1 h2]
          cases d₀ with
          | some D' =>
            simp only [Option.some.injEq]
            have hsum : sumPrev (some D :: ds') (i + 1) = D + sumPrev ds' i := by
              simp only [sumPrev, List.take_succ_cons, List.filterMap_cons, List.sum_cons]
              rfl
            rw [hsum]
            congr 1
            ring
          | none => rfl
        | none =>
          have hstep : estimateGo ct (none :: ds') (ts :: rest)
              = ts :: estimateGo ct ds' rest := rfl
          rw [hstep]
          show (estimateGo ct ds' rest).get? i = _
          rw [ih rest ct i d₀ ts₀ h1 h2]
          cases d₀ with
          | some D' =>
            simp only [Option.some.injEq]
            have hsum : sumPrev (none :: ds') (i + 1) = sumPrev ds' i := by
              simp [sumPrev, List.take_succ_cons, List.filterMap_cons]
            rw [hsum]
          | none => rfl

theorem estimateGo_map_idx : ∀ (ds : List (Option ℚ)) (initial : List SentenceTS) (ct : ℚ),
    (estimateGo ct ds initial).map (fun t => t.sentence_index)
      = (initial.take ds.length).map (fun t => t.sentence_index) := by
  intro ds
  induction ds with
  | nil =>
    intro initial ct
    simp [estimateGo]
  | cons d ds' ih =>
    intro initial ct
    cases initial with
    | nil => simp [estimateGo]
    | cons ts rest =>
      cases d with
      | some D =>
        have hstep : estimateGo ct (some D :: ds') (ts :: rest)
            = refineSentenceTS ct D ts :: estimateGo (ct + D) ds' rest := rfl
        rw [hstep]
        simp only [List.map_cons, List.length_cons, List.take_succ_cons]
        rw [ih rest (ct + D)]
        rfl
      | none =>
        have hstep : estimateGo ct (none :: ds') (ts :: rest)
            = ts :: estimateGo ct ds' rest := rfl
        rw [hstep]
        simp only [List.map_cons, List.length_cons, List.take_succ_cons]
        rw [ih rest ct]

theorem sumPrev_succ (ds : List (Option ℚ)) (i : Nat) (D : ℚ)
    (h : ds.get? i = some (some D)) : sumPrev ds (i + 1) = sumPrev ds i + D := by
  unfold sumPrev
  rw [List.take_succ]
  have hgei : ds[i]? = some (some D) := by
    rw [← h]
    exact (List.get?_eq_getElem? ds i).symm
  rw [hgei]
  rw [List.filterMap_append]
  rw [List.sum_append]
  simp

theorem collectResults_ok_inv : ∀ (rs : List (Nat × Option Nat × PRes))
    (temps t' : List Nat) (tss ts' : List SentenceTS),
    collectResults rs temps tss = Except.ok (t', ts') →
    t' = temps ++ collectTemps rs ∧ ts' = tss ++ tsListOf rs := by
  intro rs
  induction rs with
  | nil =>
    intro temps t' tss ts' h
    simp only [collectResults, Except.ok.injEq, Prod.mk.injEq] at h
    obtain ⟨h1, h2⟩ := h
    constructor
    · rw [← h1]
      simp [collectTemps]
    · rw [← h2]
      simp [tsListOf]
  | cons r rest ih =>
    intro temps t' tss ts' h
    rcases r with ⟨i, tf, res⟩
    cases res with
    | exc e =>
      exact absurd h (by simp [collectResults])
    | noWords =>
      cases tf with
      | some t =>
        have hstep : collectResults ((i, some t, PRes.noWords) :: rest) temps tss
            = collectResults rest (temps ++ [t]) tss := rfl
        rw [hstep] at h
        obtain ⟨h1, h2⟩ := ih (temps ++ [t]) t' tss ts' h
        rw [collectTemps_cons, tsListOf_cons]
        exact ⟨by rw [h1]; simp, by rw [h2]⟩
      | none =>
        have hstep : collectResults ((i, none, PRes.noWords) :: rest) temps tss
            = collectResults rest temps tss := rfl
        rw [hstep] at h
        obtain ⟨h1, h2⟩ := ih temps t' tss ts' h
        rw [collectTemps_cons, tsListOf_cons]
        exact ⟨by rw [h1], by rw [h2]⟩
    | ts t0 =>
      cases tf with
      | some tp =>
        have hstep : collectResults ((i, some tp, PRes.ts t0) :: rest) temps tss
            = collectResults rest (temps ++ [tp]) (tss ++ [t0]) := rfl
        rw [hstep] at h
        obtain ⟨h1, h2⟩ := ih (temps ++ [tp]) t' (tss ++ [t0]) ts' h
        rw [collectTemps_cons, tsListOf_cons]
        exact ⟨by rw [h1]; simp, by rw [h2]; simp⟩
      | none =>
        have hstep : collectResults ((i, none, PRes.ts t0) :: rest) temps tss
            = collectResults rest temps tss := rfl
        rw [hstep] at h
        obtain ⟨h1, h2⟩ := ih temps t' tss ts' h
        rw [collectTemps_cons, tsListOf_cons]
        exact ⟨by rw [h1], by rw [h2]⟩

theorem processAll_ts_idx (sentences : List SentenceSettings) (outs : List SentOutcome)
    (oracles : List CombineOracle) (st : FsState) :
    ∀ r ∈ (processAll 0 sentences outs oracles st).1, ∀ t, r.2.2 = PRes.ts t →
      t.sentence_index = r.1 := by
  intro r hr t ht
  obtain ⟨j, hj⟩ := List.mem_iff_get?.mp hr
  obtain ⟨s_j, o_j, _, _, hc, hd⟩ := processAll_get sentences outs oracles 0 st j r hj
  rw [ht] at hd
  unfold expectedRes at hd
  by_cases hw : s_j.words = []
  · rw [if_pos hw] at hd
    cases hd
  · rw [if_neg hw] at hd
    cases o_j with
    | ok =>
      simp only at hd
      injection hd with hd
      rw [hd]
      show (0 + j : Nat) = r.1
      omega
    | synthFail e =>
      simp only at hd
      cases hd

theorem estimateGo_length : ∀ (ds : List (Option ℚ)) (initial : List SentenceTS) (ct : ℚ),
    (estimateGo ct ds initial).length = min ds.length initial.length := by
  intro ds
  induction ds with
  | nil => intro initial ct; simp [estimateGo]
  | cons d ds' ih =>
    intro initial ct
    cases initial with
    | nil => simp [estimateGo]
    | cons ts rest =>
      cases d with
      | some D =>
        have hstep : estimateGo ct (some D :: ds') (ts :: rest)
            = refineSentenceTS ct D ts :: estimateGo (ct + D) ds' rest := rfl
        rw [hstep]
        simp only [List.length_cons, ih]
        omega
      | none =>
        have hstep : estimateGo ct (none :: ds') (ts :: rest)
            = ts :: estimateGo ct ds' rest := rfl
        rw [hstep]
        simp only [List.length_cons, ih]
        omega

/-- C8: the run result is independent of the completion order of the
per-sentence tasks; the timing document lists sentences in strictly
increasing original sentence-index order; and the estimator assigns each
measured sentence `start_ms = int(cursor)`, `end_ms = int(cursor + D)` with
the cursor the sum of the previously measured durations, making successive
measured intervals contiguous. -/
theorem C8_order_preservation (sentences : List SentenceSettings) (outs : List SentOutcome)
    (oracles : List CombineOracle) (finalOracle : CombineOracle)
    (durations : List (Option ℚ)) (perm : List Nat) (st : FsState)
    (hl1 : outs.length = sentences.length) (hl2 : oracles.length = sentences.length)
    (hperm : perm.Perm (List.range sentences.length)) :
    (generateAudioM sentences outs oracles finalOracle durations perm st
      = generateAudioM sentences outs oracles finalOracle durations
          (List.range sentences.length) st)
    ∧ (∀ tss, (generateAudioM sentences outs oracles finalOracle durations perm st).1.project
          = some tss →
        List.Pairwise (fun a b : SentenceTS => a.sentence_index < b.sentence_index) tss)
    ∧ (∀ (ds : List (Option ℚ)) (initial : List SentenceTS) (i : Nat) (D : ℚ)
        (ts₀ : SentenceTS),
        ds.get? i = some (some D) → initial.get? i = some ts₀ →
        ((estimateTimestamps ds initial).get? i
            = some (refineSentenceTS (sumPrev ds i) D ts₀))
          ∧ (∀ r, (estimateTimestamps ds initial).get? i = some r →
              r.start_ms = pyInt (sumPrev ds i)
              ∧ r.end_ms = pyInt (sumPrev ds i + D)
              ∧ r.sentence_index = ts₀.sentence_index)
          ∧ (∀ (D' : ℚ) (r r' : SentenceTS), ds.get? (i + 1) = some (some D') →
              (estimateTimestamps ds initial).get? i = some r →
              (estimateTimestamps ds initial).get? (i + 1) = some r' →
              r'.start_ms = r.end_ms)) := by
  have hkeys := processAll_keys sentences outs oracles 0 st hl1 hl2
  have hlen := processAll_length sentences outs oracles 0 st hl1 hl2
  have hperm' : perm.Perm (List.range (processAll 0 sentences outs oracles st).1.length) := by
    rw [hlen]
    exact hperm
  have hkeys' : (processAll 0 sentences outs oracles st).1.map (fun r => r.1)
      = List.range' 0 (processAll 0 sentences outs oracles st).1.length := by
    rw [hlen]
    exact hkeys
  have hsorted1 := sortedResults_eq (processAll 0 sentences outs oracles st).1 perm 0
    hkeys' hperm'
  have hsorted2 := sortedResults_eq (processAll 0 sentences outs oracles st).1
    (List.range sentences.length) 0 hkeys' (by rw [hlen])
  refine ⟨?_, ?_, ?_⟩
  · simp only [generateAudioM]
    rw [hsorted1, hsorted2]
  · intro tss hproj
    simp only [generateAudioM] at hproj
    rw [hsorted1] at hproj
    rcases hcr : collectResults (processAll 0 sentences outs oracles st).1 [] [] with
      ⟨e, temps⟩ | ⟨temps, tss'⟩
    · rw [hcr] at hproj
      simp at hproj
    · rw [hcr] at hproj
      simp only [Option.some.injEq] at hproj
      obtain ⟨_, hts'⟩ := collectResults_ok_inv
        (processAll 0 sentences outs oracles st).1 [] temps [] tss' hcr
      simp only [List.nil_append] at hts'
      have hkeysPW : List.Pairwise (fun a b : Nat × Option Nat × PRes => a.1 < b.1)
          (processAll 0 sentences outs oracles st).1 := by
        have hr := List.pairwise_lt_range' 0 (processAll 0 sentences outs oracles st).1.length
        rw [← hkeys'] at hr
        exact List.pairwise_map.mp hr
      have hPW2 : List.Pairwise (fun a b : Nat × Option Nat × PRes =>
          ∀ t ∈ (match a.2.2, a.2.1 with
            | PRes.ts t, some _ => some t
            | _, _ => none),
          ∀ t' ∈ (match b.2.2, b.2.1 with
            | PRes.ts t, some _ => some t
            | _, _ => none),
          t.sentence_index < t'.sentence_index)
          (processAll 0 sentences outs oracles st).1 := by
        refine List.Pairwise.imp_of_mem ?_ hkeysPW
        intro a b ha hb hab t hta t' htb
        have hia : t.sentence_index = a.1 := by
          rcases a with ⟨ia, tfa, resa⟩
          cases resa <;> cases tfa <;> simp_all
          exact (processAll_ts_idx sentences outs oracles st _ ha t (by simp_all)).symm ▸ rfl
        have hib : t'.sentence_index = b.1 := by
          rcases b with ⟨ib, tfb, resb⟩
          cases resb <;> cases tfb <;> simp_all
          exact (processAll_ts_idx sentences outs oracles st _ hb t' (by simp_all)).symm ▸ rfl
        rw [hia, hib]
        exact hab
      have hPWts : List.Pairwise (fun a b : SentenceTS =>
          a.sentence_index < b.sentence_index)
          (tsListOf (processAll 0 sentences outs oracles st).1) := by
        unfold tsListOf
        exact List.pairwise_filterMap.mpr hPW2
      have hmap := estimateGo_map_idx durations
        (tsListOf (processAll 0 sentences outs oracles st).1) 0
      have htake : List.Pairwise (fun a b : SentenceTS =>
          a.sentence_index < b.sentence_index)
          ((tsListOf (processAll 0 sentences outs oracles st).1).take durations.length) :=
        hPWts.sublist (List.take_sublist _ _)
      have hmapPW : List.Pairwise (fun a b : Nat => a < b)
          (((tsListOf (processAll 0 sentences outs oracles st).1).take
            durations.length).map (fun t => t.sentence_index)) :=
        List.pairwise_map.mpr htake
      rw [← hmap] at hmapPW
      have hout := List.pairwise_map.mp hmapPW
      rw [← hproj, hts']
      show List.Pairwise _
        (estimateGo 0 durations (tsListOf (processAll 0 sentences outs oracles st).1))
      exact hout
  · intro ds initial i D ts₀ h1 h2
    have hq : estimateTimestamps ds initial = estimateGo 0 ds initial := rfl
    have hget := estimateGo_get ds initial 0 i (some D) ts₀ h1 h2
    simp only [zero_add] at hget
    refine ⟨by rw [hq]; exact hget, ?_, ?_⟩
    · intro r hr
      rw [hq, hget] at hr
      injection hr with hr
      rw [← hr]
      exact ⟨refineSentenceTS_start _ _ _, refineSentenceTS_end _ _ _,
        refineSentenceTS_idx _ _ _⟩
    · intro D' r r' h3 hr hr'
      rw [hq] at hr hr'
      have hlen1 : i + 1 < (estimateGo 0 ds initial).length := by
        have := List.get?_eq_some.mp hr'
        obtain ⟨h, _⟩ := this
        exact h
      have hlen2 : i + 1 < initial.length := by
        rw [estimateGo_length] at hlen1
        omega
      have hts1 : initial.get? (i + 1) = some (initial.get ⟨i + 1, hlen2⟩) :=
        List.get?_eq_get hlen2
      have hget' := estimateGo_get ds initial 0 (i + 1) (some D')
        (initial.get ⟨i + 1, hlen2⟩) h3 hts1
      simp only [zero_add] at hget'
      rw [hget] at hr
      rw [hget'] at hr'
      injection hr with hr
      injection hr' with hr'
      rw [← hr, ← hr']
      rw [refineSentenceTS_start, refineSentenceTS_end]
      rw [sumPrev_succ ds i D h1]

/-- Witness for C8 at a two-sentence run delivered in reversed completion
order. -/
theorem C8_order_preservation_witness :
    (([SentOutcome.ok, SentOutcome.ok] : List SentOutcome).length
        = ([exSentHi, exSentYo] : List SentenceSettings).length)
    ∧ (([⟨[], true⟩, ⟨[], true⟩] : List CombineOracle).length
        = ([exSentHi, exSentYo] : List SentenceSettings).length)
    ∧ (([1, 0] : List Nat).Perm
        (List.range ([exSentHi, exSentYo] : List SentenceSettings).length))
    ∧ ((generateAudioM [exSentHi, exSentYo] [SentOutcome.ok, SentOutcome.ok]
          [⟨[], true⟩, ⟨[], true⟩] ⟨[], true⟩ [] [1, 0] ⟨0, ∅⟩
        = generateAudioM [exSentHi, exSentYo] [SentOutcome.ok, SentOutcome.ok]
            [⟨[], true⟩, ⟨[], true⟩] ⟨[], true⟩ []
            (List.range ([exSentHi, exSentYo] : List SentenceSettings).length) ⟨0, ∅⟩)
      ∧ (∀ tss, (generateAudioM [exSentHi, exSentYo] [SentOutcome.ok, SentOutcome.ok]
            [⟨[], true⟩, ⟨[], true⟩] ⟨[], true⟩ [] [1, 0] ⟨0, ∅⟩).1.project = some tss →
          List.Pairwise (fun a b : SentenceTS => a.sentence_index < b.sentence_index) tss)
      ∧ (∀ (ds : List (Option ℚ)) (initial : List SentenceTS) (i : Nat) (D : ℚ)
          (ts₀ : SentenceTS),
          ds.get? i = some (some D) → initial.get? i = some ts₀ →
          ((estimateTimestamps ds initial).get? i
              = some (refineSentenceTS (sumPrev ds i) D ts₀))
            ∧ (∀ r, (estimateTimestamps ds initial).get? i = some r →
                r.start_ms = pyInt (sumPrev ds i)
                ∧ r.end_ms = pyInt (sumPrev ds i + D)
                ∧ r.sentence_index = ts₀.sentence_index)
            ∧ (∀ (D' : ℚ) (r r' : SentenceTS), ds.get? (i + 1) = some (some D') →
                (estimateTimestamps ds initial).get? i = some r →
                (estimateTimestamps ds initial).get? (i + 1) = some r' →
                r'.start_ms = r.end_ms))) :=
  ⟨rfl, rfl, by decide,
    C8_order_preservation [exSentHi, exSentYo] [SentOutcome.ok, SentOutcome.ok]
      [⟨[], true⟩, ⟨[], true⟩] ⟨[], true⟩ [] [1, 0] ⟨0, ∅⟩ rfl rfl (by decide)⟩
